import Mathlib

/-!
A shallow embedding of the `mmd` markdown-dialect parser
(`src/mmd/parse.py`) and the parts of the renderer contract
(`src/mmd/html.py`, `list_as_html`) that the verified properties refer to.

Modelling conventions:
* A source file is a list of lines (`List Char` each), i.e. the result of
  Python's `file.read_text().splitlines()`; source positions are the bare
  line numbers (the `file` component of `SourceReference` is dropped).
* Machine strings are `List Char`.  Python's `str` slicing/stripping becomes
  `List.take/drop/takeWhile/...`.
* Every Python `list` that the parser only ever mutates with `append` / `pop`
  (document content, paragraph content, word lists, the scope stack) is stored
  NEWEST-FIRST: `xs.append(v)` becomes `v :: xs` and `xs.pop()` takes the head.
  `xs[-1]` is therefore the head of the Lean list.
* Python exceptions are an explicit `Except Err` result.  `Modifier` is the
  `Flag` bit-set, embedded as a `Nat` with the `auto()` values and `^`/`|`/`&`
  as `Nat` bitwise operations.
* The scope stack `stack = [root, ..., top]` is represented as the current
  top document plus a list of suspended `Frame`s (innermost first).  A frame
  stores the parent document *without* the child document installed, plus the
  `Plug` describing where the child was appended when its scope was opened
  (Python appends the `Section`/`Aside`/`List` node at push time; since the
  parent is never read or written again until the child is popped, installing
  the child at pop time is observationally identical).
-/

namespace MMD

/-- The characters Python's `\s` matches in the ASCII range (lines come from
`splitlines`, and all inputs of interest are ASCII). -/
def pySpace (c : Char) : Bool :=
  c == ' ' || c == '\t' || c == '\n' || c == '\r' || c == '\x0b' || c == '\x0c'

/-- Strings of the embedded program. -/
abbrev Str := List Char

/-- `re.match(r'^\s*$', s)`: the whole string is whitespace. -/
def isBlank (s : Str) : Bool := s.all pySpace

def isUpperC (c : Char) : Bool := 'A' ≤ c && c ≤ 'Z'

def isDigitC (c : Char) : Bool := '0' ≤ c && c ≤ '9'

/-- `str.rstrip()` (whitespace only). -/
def rstrip (s : Str) : Str := (s.reverse.dropWhile pySpace).reverse

/-- `str.lstrip()` (whitespace only). -/
def lstrip (s : Str) : Str := s.dropWhile pySpace

/- The `Modifier` flag values, in `auto()` order (`parse.py`, class
`Modifier`).  `NONE = 0`. -/
namespace Modifier

def NONE : Nat := 0

def WITH_SPACES : Nat := 1

def ALIGN : Nat := 2

def BOLD : Nat := 4

def ITALIC : Nat := 8

def MONOSPACE : Nat := 16

def STRIKETHROUGH : Nat := 32

def SELECT : Nat := 64

def QUOTES : Nat := 128

def BLOCK : Nat := 256

end Modifier

/-- The exceptions `parse` can raise.  `attributeError` stands for Python's
`AttributeError` (e.g. `Document.empty` reaching a `Section` element, or
`.append` on `None`); `indexError` for `list.pop()` / `list[-1]` on an empty
list; `stopIteration` for exhausting the line iterator inside a code fence.
`outOfFuel` is an artifact of the fuelled driver and is never reached when
the driver is run with fuel `≥` the number of input lines. -/
inductive Err where
  | rootSpace (lineno : Nat)
  | invalidIndentation (lineno : Nat)
  | spacesNotAllowed (lineno : Nat)
  | attributeError
  | indexError
  | stopIteration
  | outOfFuel
deriving DecidableEq, Repr

/-- `Aside.Kind`: `'' | '#' | '_'`. -/
inductive AsideKind where
  | plain
  | emphasis
  | foot
deriving DecidableEq, Repr

/-- `Word(value, modifier)`; the modifier is the `Modifier` bit-set. -/
structure Word where
  value : Str
  modifier : Nat
deriving DecidableEq, Repr

/-- `SourceLine(reference, content)`; the reference is reduced to its line
number, `content` is newest-first. -/
structure SourceLine where
  reference : Nat
  content : List Word
deriving DecidableEq, Repr

mutual

/-- `Document(indent, title, content)`.  `title` is whatever
`document().pop()` returned when the `---` rule fired (Python does not
constrain it to a `Paragraph`).  `content` is newest-first. -/
inductive Document where
  | mk (indent : Nat) (title : Option DocItem) (content : List DocItem)

/-- A `Document.content` element: `Paragraph | Section`. -/
inductive DocItem where
  | paragraph (p : Paragraph)
  | sec (level : Nat) (title : Option Str) (document : Document)

/-- `Paragraph(content)` — newest-first. -/
inductive Paragraph where
  | mk (content : List ParItem)

/-- A `Paragraph.content` element: `Line | Aside | List | Block`.  A `Line`
is its `content` list of `SourceLine`s (newest-first), a `Block` its optional
language and raw `SourceLine`s (newest-first). -/
inductive ParItem where
  | line (content : List SourceLine)
  | aside (kind : AsideKind) (document : Document)
  | list (marker : Str) (document : Document)
  | block (language : Option Str) (content : List SourceLine)

end

def Document.indent : Document → Nat
  | .mk i _ _ => i

def Document.title : Document → Option DocItem
  | .mk _ t _ => t

def Document.content : Document → List DocItem
  | .mk _ _ c => c

def Paragraph.content : Paragraph → List ParItem
  | .mk c => c

/-- `Paragraph.empty`: `len(self.content) == 0`. -/
def Paragraph.empty (p : Paragraph) : Bool := p.content.isEmpty

mutual

/-- `Document.paragraph` (property): `self.content[-1].paragraph`, an
`IndexError` on an empty content list. -/
def Document.paragraphProp : Document → Except Err Paragraph
  | .mk _ _ [] => .error .indexError
  | .mk _ _ (c :: _) => DocItem.paragraphProp c

/-- `Paragraph.paragraph` is the paragraph itself; `Section.paragraph` is
`self.document.paragraph`. -/
def DocItem.paragraphProp : DocItem → Except Err Paragraph
  | .paragraph p => .ok p
  | .sec _ _ d => Document.paragraphProp d

end

mutual

/-- `Document.empty`: `all(c.empty() for c in self.content)`.  Python's
`all` consumes the generator oldest-element-first and stops at the first
`False`; a `Section` element has no `empty` method, so reaching one raises
`AttributeError`.  (Our content lists are newest-first, hence the `reverse`.) -/
def Document.emptyE (d : Document) : Except Err Bool :=
  Document.emptyGo d.content.reverse

/-- The generator of `Document.empty`, oldest element first. -/
def Document.emptyGo : List DocItem → Except Err Bool
  | [] => .ok true
  | .paragraph p :: rest =>
    if p.empty then Document.emptyGo rest else .ok false
  | .sec _ _ _ :: _ => .error .attributeError

end

/-- `Document.pop`: `self.content.pop()` — returns the popped item and the
shrunk document. -/
def Document.popContent : Document → Except Err (DocItem × Document)
  | .mk _ _ [] => .error .indexError
  | .mk i t (c :: rest) => .ok (c, .mk i t rest)

/-- `Document.append(block)`. -/
def Document.appendContent : Document → DocItem → Document
  | .mk i t c, x => .mk i t (x :: c)

mutual

/-- `document().paragraph.append(x)`: navigate to the trailing paragraph
(through the trailing `Section` chain) and append `x` to it. -/
def Document.appendPar : Document → ParItem → Except Err Document
  | .mk _ _ [], _ => .error .indexError
  | .mk i t (c :: rest), x =>
    match DocItem.appendPar c x with
    | .ok c₂ => .ok (.mk i t (c₂ :: rest))
    | .error e => .error e

def DocItem.appendPar : DocItem → ParItem → Except Err DocItem
  | .paragraph (.mk ps), x => .ok (.paragraph (.mk (x :: ps)))
  | .sec l ti d, x =>
    match Document.appendPar d x with
    | .ok d₂ => .ok (.sec l ti d₂)
    | .error e => .error e

end

mutual

/-- `document().paragraph.line.append(sl)`: navigate to the trailing
paragraph, take its `line` property (`content[-1].line if content else None`,
where `Aside.line`/`List.line` recurse into their document and `Block.line`
is `None`), and append `sl` to that `Line`; `.append` on `None` raises
`AttributeError`. -/
def Document.appendToLine : Document → SourceLine → Except Err Document
  | .mk _ _ [], _ => .error .indexError
  | .mk i t (c :: rest), sl =>
    match DocItem.appendToLine c sl with
    | .ok c₂ => .ok (.mk i t (c₂ :: rest))
    | .error e => .error e

def DocItem.appendToLine : DocItem → SourceLine → Except Err DocItem
  | .paragraph p, sl =>
    match Paragraph.appendToLine p sl with
    | .ok p₂ => .ok (.paragraph p₂)
    | .error e => .error e
  | .sec l ti d, sl =>
    match Document.appendToLine d sl with
    | .ok d₂ => .ok (.sec l ti d₂)
    | .error e => .error e

def Paragraph.appendToLine : Paragraph → SourceLine → Except Err Paragraph
  | .mk [], _ => .error .attributeError
  | .mk (x :: rest), sl =>
    match ParItem.appendToLine x sl with
    | .ok x₂ => .ok (.mk (x₂ :: rest))
    | .error e => .error e

def ParItem.appendToLine : ParItem → SourceLine → Except Err ParItem
  | .line sls, sl => .ok (.line (sl :: sls))
  | .aside k d, sl =>
    match Document.appendToLine d sl with
    | .ok d₂ => .ok (.aside k d₂)
    | .error e => .error e
  | .list m d, sl =>
    match Document.appendToLine d sl with
    | .ok d₂ => .ok (.list m d₂)
    | .error e => .error e
  | .block _ _, _ => .error .attributeError

end

/-- `p` is a prefix of `s` (used only for the literal-prefix regexes
`^---`, `^```(...)`, `^```\s*$`). -/
def hasPrefixS : Str → Str → Bool
  | [], _ => true
  | _ :: _, [] => false
  | p :: ps, c :: cs => p == c && hasPrefixS ps cs

/-- Three backtick characters. -/
def backticks3 : Str := ['\x60', '\x60', '\x60']

/-- `re.match(r'^(#+)(\s*)(?:\s(.+)\s*)?$', text)`: returns
`(len of group 1, len of group 2, group 3)`.  With `hs` the maximal `#` run,
`ws` the maximal following whitespace run and `t` the remainder: if `t` is
empty the optional part is skipped (`pad = ws`, no title); otherwise the
engine backtracks one whitespace character out of `(\s*)` to feed the `\s`,
so the match requires `ws ≠ []`, `pad = ws - 1`, and `(.+)` (greedy, with
`\s*` matching empty) captures all of `t`. -/
def headingMatch (s : Str) : Option (Nat × Nat × Option Str) :=
  let hs := (s.takeWhile (fun c => c == '#')).length
  if hs == 0 then none
  else
    let rest := s.drop hs
    let ws := (rest.takeWhile pySpace).length
    let t := rest.drop ws
    if t.isEmpty then some (hs, ws, none)
    else if ws == 0 then none
    else some (hs, ws - 1, some t)

/-- `re.match(r'^(([_#]?)>\s*)', text)`: consumed length of group 1 and the
aside kind (group 2). -/
def asideMatch (s : Str) : Option (Nat × AsideKind) :=
  match s with
  | '_' :: '>' :: r => some (2 + (r.takeWhile pySpace).length, .foot)
  | '#' :: '>' :: r => some (2 + (r.takeWhile pySpace).length, .emphasis)
  | '>' :: r => some (1 + (r.takeWhile pySpace).length, .plain)
  | _ => none

/-- One atom of `(?:[A-Z]+\.|\d+\.|[IVXCM]+\.|\s*-)` at the head of `s`
(length of the consumed text).  Each alternative is deterministic: a maximal
`[A-Z]+` (resp. `\d+`, `\s*`) run must be followed by `'.'` (resp. `'-'`) —
a shorter run is followed by another character of the same class, so
backtracking inside an atom never helps.  The `[IVXCM]+\.` alternative is
subsumed by `[A-Z]+\.` (it can only match where the latter also does, with the
same length), so it never fires. -/
def listAtom (s : Str) : Option Nat :=
  let us := (s.takeWhile isUpperC).length
  let ds := (s.takeWhile isDigitC).length
  let ws := (s.takeWhile pySpace).length
  if 0 < us && (s.drop us).headD 'x' == '.' then some (us + 1)
  else if 0 < ds && (s.drop ds).headD 'x' == '.' then some (ds + 1)
  else if (s.drop ws).headD 'x' == '-' then some (ws + 1)
  else none

/-- Lengths of the maximal greedy run of atoms, fuelled (each atom consumes
at least one character, so fuel `s.length` suffices). -/
def listAtomsGo : Nat → Str → List Nat
  | 0, _ => []
  | fuel + 1, s =>
    match listAtom s with
    | none => []
    | some n => n :: listAtomsGo fuel (s.drop n)

def listAtoms (s : Str) : List Nat := listAtomsGo s.length s

/-- The `(?:\s+|$)` tail of the list rule: length it consumes at `s`. -/
def listTail (s : Str) : Option Nat :=
  let ws := (s.takeWhile pySpace).length
  if 0 < ws then some ws
  else if s.isEmpty then some 0
  else none

/-- Cumulative end positions of an atom-length run starting at offset `a`. -/
def cumSums (a : Nat) : List Nat → List Nat
  | [] => []
  | n :: ls => (a + n) :: cumSums (a + n) ls

/-- `re.match(r'^((?:[A-Z]+\.|\d+\.|[IVXCM]+\.|\s*-)+(?:\s+|$))', text)`:
group 1, i.e. the list marker.  The engine first consumes the maximal atom
run, then backtracks atom by atom (atoms are individually deterministic, so
backtracking can only drop whole trailing atoms) until `(?:\s+|$)` matches. -/
def listMatch (s : Str) : Option Str :=
  let sums := cumSums 0 (listAtoms s)
  (sums.reverse.findSome? fun p => (listTail (s.drop p)).map (fun b => p + b)).map
    (fun n => s.take n)

/-- `re.match(r'^```\s*$', l.drop ind)`: the closing fence test applied to a
raw line under the current total indent. -/
def closingFence (ind : Nat) (l : Str) : Bool :=
  let t := l.drop ind
  hasPrefixS backticks3 t && isBlank (t.drop 3)

/-- The sigil class `[_*~`]` of the tokenizer's split pattern. -/
def isEmSigil (c : Char) : Bool :=
  c == '_' || c == '*' || c == '~' || c == '\x60'

/-- Length of a match of `([_*~`]{1,2}|["\[\]]|\s+)` at the head of `s`
(`{1,2}` and `\s+` are greedy). -/
def delimAt (s : Str) : Option Nat :=
  match s with
  | [] => none
  | c :: rest =>
    if isEmSigil c then
      if isEmSigil (rest.headD 'x') then some 2 else some 1
    else if c == '"' || c == '[' || c == ']' then some 1
    else if pySpace c then some (1 + (rest.takeWhile pySpace).length)
    else none

/-- `re.split(r'([_*~`]{1,2}|["\[\]]|\s+)', text)`: pieces and captured
delimiters, in order, possibly-empty pieces included.  Fuelled (each
delimiter consumes at least one character). -/
def splitKeepGo : Nat → Str → Str → List Str
  | _, acc, [] => [acc.reverse]
  | 0, acc, rest => [acc.reverse ++ rest]
  | fuel + 1, acc, c :: rest =>
    match delimAt (c :: rest) with
    | some n =>
      acc.reverse :: (c :: rest).take n :: splitKeepGo fuel [] ((c :: rest).drop n)
    | none => splitKeepGo fuel (c :: acc) rest

def splitKeep (s : Str) : List Str := splitKeepGo s.length [] s

/-- The sigil-to-flag `mapping` of the word loop (`words[i][0] in mapping`). -/
def sigilFlag (c : Char) : Option Nat :=
  if c == '*' then some Modifier.BOLD
  else if c == '_' then some Modifier.ITALIC
  else if c == '~' then some Modifier.STRIKETHROUGH
  else if c == '\x60' then some Modifier.MONOSPACE
  else if c == '"' then some Modifier.QUOTES
  else if c == '[' then some Modifier.SELECT
  else if c == ']' then some Modifier.SELECT
  else none

/-- The word-level loop of `parse` (lines 282-313): XOR-toggle modifiers on
sigil tokens (adding `WITH_SPACES` for doubled sigils and for `"`), reject
whitespace tokens when the modifier state is neither `NONE` nor
spaces-allowing, emit every other token as a `Word` with the current state,
and clear `ALIGN` after one emitted word.  Words are accumulated
newest-first. -/
def tokenizeGo (ref : Nat) : List Str → Nat → List Word → Except Err (List Word)
  | [], _, acc => .ok acc
  | w :: rest, modifier, acc =>
    match w with
    | [] => tokenizeGo ref rest modifier acc
    | c :: _ =>
      match sigilFlag c with
      | some flag =>
        let applied :=
          if w.length == 2 || flag == Modifier.QUOTES then flag ||| Modifier.WITH_SPACES
          else flag
        tokenizeGo ref rest (modifier ^^^ applied) acc
      | none =>
        if modifier != Modifier.NONE && modifier &&& Modifier.WITH_SPACES == 0 && pySpace c then
          .error (.spacesNotAllowed ref)
        else
          let acc₂ := Word.mk w modifier :: acc
          let mod₂ :=
            if modifier &&& Modifier.ALIGN != 0 then modifier ^^^ Modifier.ALIGN else modifier
          tokenizeGo ref rest mod₂ acc₂

/-- The code-fence scan (lines 221-229): consume raw lines until one matches
the closing fence under the current total indent; each captured line becomes
a `SourceLine` (reference = the raw `enumerate` index, as in the source)
holding one `BLOCK` word with the indent stripped.  Returns the captured
lines in file order and the number of lines consumed (closer included);
exhausting the input raises `StopIteration`. -/
def scanBlock (ind : Nat) : Nat → List Str → Except Err (List SourceLine × Nat)
  | _, [] => .error .stopIteration
  | idx, l :: rest =>
    if closingFence ind l then .ok ([], 1)
    else
      match scanBlock ind (idx + 1) rest with
      | .ok (c, k) => .ok (SourceLine.mk idx [Word.mk (l.drop ind) Modifier.BLOCK] :: c, k + 1)
      | .error e => .error e

/-- What was appended to the parent when a nested scope was opened. -/
inductive Plug where
  | sec (level : Nat) (title : Option Str)
  | aside (kind : AsideKind)
  | list (marker : Str)

/-- A suspended ancestor scope: its document data (without the still-open
child installed) and the plug describing where the child's node sits. -/
structure Frame where
  doc : Document
  plug : Plug

/-- The parser state: the current document (`stack[-1]`) plus the suspended
ancestors, innermost first (`stack[:-1]` reversed). -/
structure PState where
  top : Document
  frames : List Frame

/-- `indent()`: the sum of the indents of all stack entries. -/
def indentOf (s : PState) : Nat :=
  s.top.indent + (s.frames.map (fun f => f.doc.indent)).sum

/-- Install a child document where its node was appended at push time
(`Section` at the end of the parent's content; `Aside`/`List` at the end of
the parent's trailing paragraph). -/
def plugIn (parent : Document) (plug : Plug) (child : Document) : Except Err Document :=
  match plug with
  | .sec level title => .ok (parent.appendContent (.sec level title child))
  | .aside kind => parent.appendPar (.aside kind child)
  | .list marker => parent.appendPar (.list marker child)

/-- One iteration of the pop loop (lines 171-178): `previous = stack.pop()`;
if `previous` is non-empty but its trailing paragraph is empty, the trailing
content element is popped off `previous` and appended to the parent. -/
def popOnce (previous : Document) (f : Frame) : Except Err Document := do
  let isEmp ← previous.emptyE
  if isEmp then
    plugIn f.doc f.plug previous
  else
    let p ← previous.paragraphProp
    if p.empty then
      let popped ← previous.popContent
      let parent ← plugIn f.doc f.plug popped.2
      return parent.appendContent popped.1
    else
      plugIn f.doc f.plug previous

/-- The pop loop guard and iteration: pop while the stack is nested, the raw
line is nonempty, and the line's first `indent()` characters are not all
whitespace. -/
def popLoop (top : Document) : List Frame → Str → Except Err (Document × List Frame)
  | [], _ => .ok (top, [])
  | f :: rest, text =>
    if 0 < text.length &&
        !isBlank (text.take (top.indent + f.doc.indent + (rest.map (fun g => g.doc.indent)).sum)) then
      match popOnce top f with
      | .ok top₂ => popLoop top₂ rest text
      | .error e => .error e
    else
      .ok (top, f :: rest)

/-- Lines 183-192: while the current document is still empty, claim leading
whitespace of the indent-stripped line as extra indentation — except at the
root, where nonzero leading whitespace is fatal. -/
def claimPhase (s : PState) (text : Str) (ref : Nat) : Except Err (PState × Str) := do
  let isEmp ← s.top.emptyE
  if isEmp then
    let remaining := (text.takeWhile pySpace).length
    if 0 < remaining && s.frames.isEmpty then
      .error (.rootSpace ref)
    else
      .ok (⟨.mk (s.top.indent + remaining) s.top.title s.top.content, s.frames⟩,
        text.drop remaining)
  else
    .ok (s, text)

/-- Lines 257-315 of the loop body: the blank-line rule, the new-line /
continuation rule and the word-level tokenization, applied to the text left
after the structural markers have been consumed. -/
def textBody (s : PState) (lineno : Nat) (text : Str) (rest : List Str) :
    Except Err (PState × List Str) := do
  let ref := lineno + 1
  -- New paragraph if whitespace only or empty
  if isBlank text then
    let p ← s.top.paragraphProp
    if p.empty then
      return (s, rest)
    else
      return (⟨s.top.appendContent (.paragraph (.mk [])), s.frames⟩, rest)
  else
    -- New line if it does not start with a space, continued line otherwise
    let tt ←
      if !pySpace (text.headD 'x') then do
        let t ← s.top.appendPar (.line [])
        pure (t, text)
      else do
        let p ← s.top.paragraphProp
        if p.empty then .error (.invalidIndentation ref)
        else pure (s.top, lstrip text)
    -- Text/Word level parsing
    let words := splitKeep (rstrip tt.2)
    let emitted ← tokenizeGo ref words Modifier.NONE []
    let top₂ ← tt.1.appendToLine (SourceLine.mk ref emitted)
    return (⟨top₂, s.frames⟩, rest)

/-- Lines 194-315 of the loop body: the classification of the indent-stripped
(and possibly claimed) line text, and everything that follows it. -/
def lineBody (s : PState) (lineno : Nat) (text : Str) (rest : List Str) :
    Except Err (PState × List Str) := do
  -- Mark as title with triple
  if hasPrefixS ['-', '-', '-'] text then
    let pc ← s.top.popContent
    return (⟨.mk pc.2.indent (some pc.1) (.paragraph (.mk []) :: pc.2.content), s.frames⟩,
      rest)
  -- New section if it starts with hashtags
  match headingMatch text with
  | some (level, pad, title) => do
    let p ← s.top.paragraphProp
    let top₂ ←
      if p.empty then do
        let pc ← s.top.popContent
        pure pc.2
      else pure s.top
    let virt : Document := .mk (level + pad + 1) none [.paragraph (.mk [])]
    return (⟨virt, Frame.mk top₂ (.sec level title) :: s.frames⟩, rest)
  | none => do
    -- Block
    if hasPrefixS backticks3 text then
      let language := if (text.drop 3).isEmpty then none else some (text.drop 3)
      let captured ← scanBlock (indentOf s) (lineno + 1) rest
      let top₂ ← s.top.appendPar (.block language captured.1.reverse)
      return (⟨top₂, s.frames⟩, rest.drop captured.2)
    -- Aside if it starts with `.?>`
    let st ←
      match asideMatch text with
      | some mk => do
        -- Python appends the Aside node into the trailing paragraph here;
        -- the append itself is deferred to the plug, but its possible
        -- IndexError must surface now
        let _ ← s.top.paragraphProp
        let virt : Document := .mk mk.1 none [.paragraph (.mk [])]
        pure ((⟨virt, Frame.mk s.top (.aside mk.2) :: s.frames⟩ : PState), text.drop mk.1)
      | none => pure (s, text)
    -- List (known only implemented)
    let st₂ ←
      match listMatch st.2 with
      | some marker => do
        let _ ← st.1.top.paragraphProp
        let virt : Document := .mk marker.length none [.paragraph (.mk [])]
        pure ((⟨virt, Frame.mk st.1.top (.list marker) :: st.1.frames⟩ : PState),
          st.2.drop marker.length)
      | none => pure st
    textBody st₂.1 lineno st₂.2 rest

/-- The body of the `for` loop of `parse`, for one physical line: `lineno` is
the 0-based index, `rest` the lines after it (consumed only by the code-fence
scan).  Returns the new state and the lines still to be processed. -/
def processLine (s : PState) (lineno : Nat) (text : Str) (rest : List Str) :
    Except Err (PState × List Str) := do
  -- Pop document if indent is no longer matched
  let popped ← popLoop s.top s.frames text
  let s₁ : PState := ⟨popped.1, popped.2⟩
  -- Remove the indent
  let text₂ := text.drop (indentOf s₁)
  -- Claim space if still empty
  let claimed ← claimPhase s₁ text₂ (lineno + 1)
  lineBody claimed.1 lineno claimed.2 rest

/-- The fuelled driver over the line list; fuel `≥` the number of lines never
runs out, since every step consumes at least the current line. -/
def parseGo : Nat → PState → Nat → List Str → Except Err PState
  | _, s, _, [] => .ok s
  | 0, _, _, _ :: _ => .error .outOfFuel
  | fuel + 1, s, lineno, text :: rest =>
    match processLine s lineno text rest with
    | .ok (s₂, rest₂) => parseGo fuel s₂ (lineno + 1 + (rest.length - rest₂.length)) rest₂
    | .error e => .error e

/-- Reconnect all still-open scopes (`return stack[0]`: in Python the tree is
linked at push time, so the returned root already contains every still-open
document; no pop bookkeeping runs at end of input). -/
def plugAll : Document → List Frame → Except Err Document
  | top, [] => .ok top
  | top, f :: rest =>
    match plugIn f.doc f.plug top with
    | .ok d => plugAll d rest
    | .error e => .error e

/-- `parse`, over the list of source lines (`read_text().splitlines()`). -/
def parse (lines : List Str) : Except Err Document :=
  match parseGo lines.length ⟨.mk 0 none [.paragraph (.mk [])], []⟩ 0 lines with
  | .ok s => plugAll s.top s.frames
  | .error e => .error e

/-- Whether a content element is an empty `Paragraph` (a `Section` is not). -/
def DocItem.isEmptyPar : DocItem → Bool
  | .paragraph p => p.empty
  | .sec _ _ _ => false

mutual

/-- Every document of the tree, the root included (titles traversed too). -/
def Document.allDocs : Document → List Document
  | .mk i t c => Document.mk i t c :: DocItem.allDocsOpt t ++ DocItem.allDocsList c

def DocItem.allDocsOpt : Option DocItem → List Document
  | none => []
  | some x => DocItem.allDocs x

def DocItem.allDocsList : List DocItem → List Document
  | [] => []
  | x :: xs => DocItem.allDocs x ++ DocItem.allDocsList xs

def DocItem.allDocs : DocItem → List Document
  | .paragraph p => Paragraph.allDocs p
  | .sec _ _ d => Document.allDocs d

def Paragraph.allDocs : Paragraph → List Document
  | .mk c => ParItem.allDocsList c

def ParItem.allDocsList : List ParItem → List Document
  | [] => []
  | x :: xs => ParItem.allDocs x ++ ParItem.allDocsList xs

def ParItem.allDocs : ParItem → List Document
  | .line _ => []
  | .aside _ d => Document.allDocs d
  | .list _ d => Document.allDocs d
  | .block _ _ => []

end

mutual

/-- Every `List` marker stored anywhere in the tree. -/
def Document.allMarkers : Document → List Str
  | .mk _ t c => DocItem.allMarkersOpt t ++ DocItem.allMarkersList c

def DocItem.allMarkersOpt : Option DocItem → List Str
  | none => []
  | some x => DocItem.allMarkers x

def DocItem.allMarkersList : List DocItem → List Str
  | [] => []
  | x :: xs => DocItem.allMarkers x ++ DocItem.allMarkersList xs

def DocItem.allMarkers : DocItem → List Str
  | .paragraph p => Paragraph.allMarkers p
  | .sec _ _ d => Document.allMarkers d

def Paragraph.allMarkers : Paragraph → List Str
  | .mk c => ParItem.allMarkersList c

def ParItem.allMarkersList : List ParItem → List Str
  | [] => []
  | x :: xs => ParItem.allMarkers x ++ ParItem.allMarkersList xs

def ParItem.allMarkers : ParItem → List Str
  | .line _ => []
  | .aside _ d => Document.allMarkers d
  | .list m d => m :: Document.allMarkers d
  | .block _ _ => []

end

mutual

/-- Every `Word` stored anywhere in the tree (lines and code blocks;
`Section` titles are raw strings, not words). -/
def Document.allWords : Document → List Word
  | .mk _ t c => DocItem.allWordsOpt t ++ DocItem.allWordsList c

def DocItem.allWordsOpt : Option DocItem → List Word
  | none => []
  | some x => DocItem.allWords x

def DocItem.allWordsList : List DocItem → List Word
  | [] => []
  | x :: xs => DocItem.allWords x ++ DocItem.allWordsList xs

def DocItem.allWords : DocItem → List Word
  | .paragraph p => Paragraph.allWords p
  | .sec _ _ d => Document.allWords d

def Paragraph.allWords : Paragraph → List Word
  | .mk c => ParItem.allWordsList c

def ParItem.allWordsList : List ParItem → List Word
  | [] => []
  | x :: xs => ParItem.allWords x ++ ParItem.allWordsList xs

def ParItem.allWords : ParItem → List Word
  | .line sls => (sls.map SourceLine.content).flatten
  | .aside _ d => Document.allWords d
  | .list _ d => Document.allWords d
  | .block _ sls => (sls.map SourceLine.content).flatten

end

mutual

/-- The structural invariant behind C5: in every content sequence (of this
document and of every nested one), an empty `Paragraph` occurs only as the
most recent element — equivalently, never directly followed by a later
sibling.  Content lists are newest-first, so "most recent" is the head. -/
def Document.goodTail : Document → Bool
  | .mk _ t c =>
    c.tail.all (fun x => !x.isEmptyPar) && Document.goodTitle t && DocItem.goodTailList c

def Document.goodTitle : Option DocItem → Bool
  | none => true
  | some x => DocItem.goodTail x

def DocItem.goodTailList : List DocItem → Bool
  | [] => true
  | x :: xs => DocItem.goodTail x && DocItem.goodTailList xs

def DocItem.goodTail : DocItem → Bool
  | .paragraph p => Paragraph.goodTail p
  | .sec _ _ d => Document.goodTail d

def Paragraph.goodTail : Paragraph → Bool
  | .mk c => ParItem.goodTailList c

def ParItem.goodTailList : List ParItem → Bool
  | [] => true
  | x :: xs => ParItem.goodTail x && ParItem.goodTailList xs

def ParItem.goodTail : ParItem → Bool
  | .line _ => true
  | .aside _ d => Document.goodTail d
  | .list _ d => Document.goodTail d
  | .block _ _ => true

end

/-- For a suspended section scope the parent's whole content is free of
empty paragraphs (the heading rule popped any trailing empty paragraph
before the `Section` node was appended), so installing the child keeps the
invariant. -/
def Frame.sectionAll (f : Frame) : Bool :=
  match f.plug with
  | .sec _ _ => f.doc.content.all (fun x => !x.isEmptyPar)
  | _ => true

def Frame.goodTail (f : Frame) : Bool := f.doc.goodTail && f.sectionAll

def PState.goodTail (s : PState) : Bool := s.top.goodTail && s.frames.all Frame.goodTail

/-- Markers held by a suspended scope's plug. -/
def Plug.markers : Plug → List Str
  | .list m => [m]
  | _ => []

def Frame.markers (f : Frame) : List Str := f.plug.markers ++ f.doc.allMarkers

def PState.markers (s : PState) : List Str :=
  s.top.allMarkers ++ (s.frames.map Frame.markers).flatten

def Frame.words (f : Frame) : List Word := f.doc.allWords

def PState.words (s : PState) : List Word :=
  s.top.allWords ++ (s.frames.map Frame.words).flatten

/-- `m` is a value the list-marker regex actually produced on some text —
i.e. exactly the consumed match of the list rule, unmodified. -/
def isConsumedMarker (m : Str) : Prop := ∃ t, listMatch t = some m

/-- `re.search(r'[A-Z]+\.\s*$', m)`-style probe of `list_as_html`: after the
optional trailing whitespace, the marker ends in `'.'` preceded by a
character of the class. -/
def searchEndsDot (cls : Char → Bool) (m : Str) : Bool :=
  match (rstrip m).reverse with
  | '.' :: c :: _ => cls c
  | _ => false

/-- `re.search(r'\s*-\s*$', m)`: after the optional trailing whitespace the
marker ends in `'-'`. -/
def searchEndsDash (m : Str) : Bool :=
  match (rstrip m).reverse with
  | '-' :: _ => true
  | _ => false

def isRomanC (c : Char) : Bool :=
  c == 'I' || c == 'V' || c == 'X' || c == 'C' || c == 'M'

/-- At least one of the four `re.search` probes of `list_as_html`
(`src/mmd/html.py`, lines 77-99) succeeds on `m`, so the renderer can infer
the list style and its `assert start is not None` passes. -/
def rendererInfers (m : Str) : Bool :=
  searchEndsDot isUpperC m || searchEndsDot isDigitC m ||
    searchEndsDot isRomanC m || searchEndsDash m

/-- The running invariant of the parser state: every document in play
(current and suspended) keeps empty paragraphs only in trailing position
(with the extra bookkeeping for suspended section scopes), every stored
marker is an unmodified match of the list rule, and no stored word carries
the `ALIGN` flag. -/
def stateInv (s : PState) : Prop :=
  s.top.goodTail = true ∧ (∀ f ∈ s.frames, f.goodTail = true) ∧
    (∀ m ∈ s.markers, isConsumedMarker m) ∧
    (∀ w ∈ s.words, w.modifier &&& Modifier.ALIGN = 0)

/-! ### Helper lemmas -/

theorem isBlank_take (n : Nat) (s : Str) (h : isBlank s = true) :
    isBlank (s.take n) = true := by
  simp only [isBlank, List.all_eq_true] at h ⊢
  exact fun c hc => h c (List.take_subset n s hc)

theorem isBlank_drop (n : Nat) (s : Str) (h : isBlank s = true) :
    isBlank (s.drop n) = true := by
  simp only [isBlank, List.all_eq_true] at h ⊢
  exact fun c hc => h c (List.drop_subset n s hc)

theorem pySpace_cases {c : Char} (h : pySpace c = true) :
    c = ' ' ∨ c = '\t' ∨ c = '\n' ∨ c = '\r' ∨ c = '\x0b' ∨ c = '\x0c' := by
  simp only [pySpace, Bool.or_eq_true, beq_iff_eq] at h
  tauto

/-- A blank raw line fails the pop-loop guard, whatever the indent. -/
theorem popLoop_blank (top : Document) (frames : List Frame) (text : Str)
    (h : isBlank text = true) : popLoop top frames text = .ok (top, frames) := by
  cases frames with
  | nil => rfl
  | cons f rest =>
    have hb := isBlank_take
      (top.indent + f.doc.indent + (rest.map (fun g => g.doc.indent)).sum) text h
    simp [popLoop, hb]

theorem hasPrefixS_dash_blank (s : Str) (h : isBlank s = true) :
    hasPrefixS ['-', '-', '-'] s = false := by
  cases s with
  | nil => rfl
  | cons c cs =>
    simp only [isBlank, List.all_cons, Bool.and_eq_true] at h
    rcases pySpace_cases h.1 with rfl | rfl | rfl | rfl | rfl | rfl <;> rfl

theorem hasPrefixS_backticks_blank (s : Str) (h : isBlank s = true) :
    hasPrefixS backticks3 s = false := by
  cases s with
  | nil => rfl
  | cons c cs =>
    simp only [isBlank, List.all_cons, Bool.and_eq_true] at h
    rcases pySpace_cases h.1 with rfl | rfl | rfl | rfl | rfl | rfl <;> rfl

theorem headingMatch_blank (s : Str) (h : isBlank s = true) :
    headingMatch s = none := by
  cases s with
  | nil => rfl
  | cons c cs =>
    simp only [isBlank, List.all_cons, Bool.and_eq_true] at h
    have : ((c :: cs).takeWhile (fun x => x == '#')) = [] := by
      rcases pySpace_cases h.1 with rfl | rfl | rfl | rfl | rfl | rfl <;> rfl
    simp [headingMatch, this]

theorem asideMatch_blank (s : Str) (h : isBlank s = true) :
    asideMatch s = none := by
  cases s with
  | nil => rfl
  | cons c cs =>
    simp only [isBlank, List.all_cons, Bool.and_eq_true] at h
    rcases pySpace_cases h.1 with rfl | rfl | rfl | rfl | rfl | rfl <;>
      cases cs <;> rfl

theorem listAtom_blank (s : Str) (h : isBlank s = true) : listAtom s = none := by
  have hw : s.takeWhile pySpace = s := by
    rw [List.takeWhile_eq_self_iff]
    simpa [isBlank, List.all_eq_true] using h
  have hu : s.takeWhile isUpperC = [] := by
    cases s with
    | nil => rfl
    | cons c cs =>
      simp only [isBlank, List.all_cons, Bool.and_eq_true] at h
      rcases pySpace_cases h.1 with rfl | rfl | rfl | rfl | rfl | rfl <;> rfl
  have hd : s.takeWhile isDigitC = [] := by
    cases s with
    | nil => rfl
    | cons c cs =>
      simp only [isBlank, List.all_cons, Bool.and_eq_true] at h
      rcases pySpace_cases h.1 with rfl | rfl | rfl | rfl | rfl | rfl <;> rfl
  simp [listAtom, hw, hu, hd, List.drop_length]

theorem listMatch_blank (s : Str) (h : isBlank s = true) : listMatch s = none := by
  have : listAtoms s = [] := by
    unfold listAtoms
    cases hl : s.length with
    | zero => rfl
    | succ n => simp [listAtomsGo, listAtom_blank s h]
  simp [listMatch, this, cumSums]

/-- `Document.empty`'s generator short-circuits: once a non-empty paragraph
has produced `False`, later elements are not consulted. -/
theorem emptyGo_append_false (l l' : List DocItem)
    (h : Document.emptyGo l = .ok false) :
    Document.emptyGo (l ++ l') = .ok false := by
  induction l with
  | nil => simp [Document.emptyGo] at h
  | cons x xs ih =>
    cases x with
    | paragraph p =>
      by_cases hp : p.empty
      · rw [Document.emptyGo] at h
        rw [List.cons_append, Document.emptyGo]
        simp only [hp, if_true] at h ⊢
        exact ih h
      · rw [List.cons_append, Document.emptyGo]
        simp [hp]
    | sec l t d => simp [Document.emptyGo] at h

theorem emptyE_cons_emptyPar (i : Nat) (t : Option DocItem) (c : List DocItem)
    (h : Document.emptyE (.mk i t c) = .ok false) :
    Document.emptyE (.mk i t (.paragraph (.mk []) :: c)) = .ok false := by
  unfold Document.emptyE at h ⊢
  simp only [Document.content] at h ⊢
  rw [List.reverse_cons]
  exact emptyGo_append_false _ _ h

theorem ok_bind {α β : Type} (a : α) (f : α → Except Err β) :
    (Except.ok a >>= f : Except Err β) = f a := rfl

theorem claimPhase_nonempty (s : PState) (text : Str) (ref : Nat)
    (h : s.top.emptyE = .ok false) : claimPhase s text ref = .ok (s, text) := by
  unfold claimPhase
  rw [h, ok_bind]
  simp

/-- Blank text reaches the blank-line rule: no earlier classifier fires. -/
theorem lineBody_blank (top : Document) (frames : List Frame) (lineno : Nat)
    (text : Str) (rest : List Str) (hb : isBlank text = true) :
    lineBody ⟨top, frames⟩ lineno text rest = textBody ⟨top, frames⟩ lineno text rest := by
  unfold lineBody
  simp only [hasPrefixS_dash_blank text hb, headingMatch_blank text hb,
    hasPrefixS_backticks_blank text hb, asideMatch_blank text hb]
  simp
  rw [listMatch_blank text hb]

/-- A blank line while the current trailing paragraph is non-empty appends
exactly one fresh empty paragraph. -/
theorem textBody_blank_break (top : Document) (frames : List Frame) (lineno : Nat)
    (text : Str) (rest : List Str) (p : Paragraph) (hb : isBlank text = true)
    (hpar : top.paragraphProp = .ok p) (hpne : p.empty = false) :
    textBody ⟨top, frames⟩ lineno text rest
      = .ok (⟨top.appendContent (.paragraph (.mk [])), frames⟩, rest) := by
  unfold textBody
  rw [hb]
  simp only [eq_self_iff_true, if_true]
  rw [hpar, ok_bind]
  simp only [hpne, Bool.false_eq_true, if_false]
  rfl

/-- A blank line while the current trailing paragraph is already empty is a
no-op. -/
theorem textBody_blank_noop (top : Document) (frames : List Frame) (lineno : Nat)
    (text : Str) (rest : List Str) (hb : isBlank text = true)
    (hpar : top.paragraphProp = .ok (.mk [])) :
    textBody ⟨top, frames⟩ lineno text rest = .ok (⟨top, frames⟩, rest) := by
  unfold textBody
  rw [hb]
  simp only [eq_self_iff_true, if_true]
  rw [hpar, ok_bind]
  simp only [Paragraph.empty, Paragraph.content, List.isEmpty_nil, if_true]
  rfl

theorem processLine_blank_break (top : Document) (frames : List Frame) (lineno : Nat)
    (text : Str) (rest : List Str) (p : Paragraph) (hb : isBlank text = true)
    (hempty : top.emptyE = .ok false)
    (hpar : top.paragraphProp = .ok p) (hpne : p.empty = false) :
    processLine ⟨top, frames⟩ lineno text rest
      = .ok (⟨top.appendContent (.paragraph (.mk [])), frames⟩, rest) := by
  unfold processLine
  dsimp only
  rw [popLoop_blank top frames text hb, ok_bind]
  dsimp only
  have hb2 := isBlank_drop (indentOf ⟨top, frames⟩) text hb
  rw [claimPhase_nonempty ⟨top, frames⟩ _ _ hempty, ok_bind]
  dsimp only
  rw [lineBody_blank top frames lineno _ rest hb2]
  exact textBody_blank_break top frames lineno _ rest p hb2 hpar hpne

theorem processLine_blank_noop (top : Document) (frames : List Frame) (lineno : Nat)
    (text : Str) (rest : List Str) (hb : isBlank text = true)
    (hempty : top.emptyE = .ok false)
    (hpar : top.paragraphProp = .ok (.mk [])) :
    processLine ⟨top, frames⟩ lineno text rest = .ok (⟨top, frames⟩, rest) := by
  unfold processLine
  dsimp only
  rw [popLoop_blank top frames text hb, ok_bind]
  dsimp only
  have hb2 := isBlank_drop (indentOf ⟨top, frames⟩) text hb
  rw [claimPhase_nonempty ⟨top, frames⟩ _ _ hempty, ok_bind]
  dsimp only
  rw [lineBody_blank top frames lineno _ rest hb2]
  exact textBody_blank_noop top frames lineno _ rest hb2 hpar

theorem err_bind {α β : Type} (e : Err) (f : α → Except Err β) :
    (Except.error e >>= f : Except Err β) = .error e := rfl

/-- Runs of blank lines after the break: each one is a no-op. -/
theorem parseGo_blank_noop (bs : List Str) (hb : ∀ b ∈ bs, isBlank b = true)
    (i : Nat) (t : Option DocItem) (c : List DocItem) (frames : List Frame) (lineno : Nat)
    (hempty : Document.emptyE (.mk i t c) = .ok false) :
    parseGo bs.length
        ⟨Document.mk i t (.paragraph (.mk []) :: c), frames⟩ lineno bs
      = .ok ⟨Document.mk i t (.paragraph (.mk []) :: c), frames⟩ := by
  induction bs generalizing lineno with
  | nil => rfl
  | cons b bs ih =>
    have hstep := processLine_blank_noop (.mk i t (.paragraph (.mk []) :: c)) frames lineno b bs
      (hb b (List.mem_cons_self b bs)) (emptyE_cons_emptyPar i t c hempty) rfl
    rw [show (b :: bs).length = bs.length + 1 from rfl]
    unfold parseGo
    rw [hstep]
    simpa using ih (fun x hx => hb x (List.mem_cons_of_mem b hx)) (lineno + 1 + (bs.length - bs.length))

/-- A successful fence scan splits the input at the first closing line and
wraps each body line verbatim. -/
theorem scanBlock_spec (ind : Nat) : ∀ (idx : Nat) (lines : List Str)
    (captured : List SourceLine) (k : Nat),
    scanBlock ind idx lines = .ok (captured, k) →
    ∃ body closer rest, lines = body ++ closer :: rest ∧ k = body.length + 1 ∧
      (∀ l ∈ body, closingFence ind l = false) ∧ closingFence ind closer = true ∧
      captured = body.mapIdx (fun j l => SourceLine.mk (idx + j)
        [Word.mk (l.drop ind) Modifier.BLOCK]) := by
  intro idx lines
  induction lines generalizing idx with
  | nil => intro captured k h; simp [scanBlock] at h
  | cons l rest ih =>
    intro captured k h
    unfold scanBlock at h
    by_cases hc : closingFence ind l
    · rw [if_pos hc] at h
      obtain ⟨h1, h2⟩ := Prod.mk.injEq _ _ _ _ ▸ Except.ok.inj h
      exact ⟨[], l, rest, by simp, by simp [← h2], by simp, hc, by simp [← h1]⟩
    · rw [if_neg hc] at h
      cases hsc : scanBlock ind (idx + 1) rest with
      | error e => rw [hsc] at h; exact absurd h (by simp)
      | ok ck =>
        rw [hsc] at h
        obtain ⟨c₂, k₂⟩ := ck
        obtain ⟨h1, h2⟩ := Prod.mk.injEq _ _ _ _ ▸ Except.ok.inj h
        obtain ⟨body, closer, rest', hl, hk, hbody, hcl, hcap⟩ := ih (idx + 1) c₂ k₂ hsc
        refine ⟨l :: body, closer, rest', by simp [hl], by simp [← h2, hk], ?_, hcl, ?_⟩
        · intro x hx
          rcases List.mem_cons.mp hx with rfl | hx
          · exact eq_false_of_ne_true hc
          · exact hbody x hx
        · rw [← h1, hcap, List.mapIdx_cons]
          have hfg : (fun j (a : Str) => SourceLine.mk (idx + 1 + j)
                [Word.mk (a.drop ind) Modifier.BLOCK])
              = (fun j (a : Str) => SourceLine.mk (idx + (j + 1))
                [Word.mk (a.drop ind) Modifier.BLOCK]) := by
            funext j a
            have : idx + 1 + j = idx + (j + 1) := by omega
            rw [this]
          rw [hfg]
          simp

mutual

/-- Appending a good item into the trailing paragraph keeps the tree good,
and leaves the head of the content no longer an empty paragraph. -/
theorem Document.appendPar_goodD : ∀ (d : Document) (x : ParItem) (d₂ : Document),
    d.appendPar x = .ok d₂ → d.goodTail = true → x.goodTail = true →
    d₂.goodTail = true ∧
      ∃ y ys, d₂.content = y :: ys ∧ y.isEmptyPar = false ∧ ys = d.content.tail
  | .mk _ _ [], x, d₂, h, _, _ => by simp [Document.appendPar] at h
  | .mk i t (c :: rest), x, d₂, h, hg, hx => by
    rw [Document.appendPar] at h
    cases hc : DocItem.appendPar c x with
    | error e => rw [hc] at h; simp at h
    | ok c₂ =>
      rw [hc] at h
      simp only [Except.ok.injEq] at h
      subst h
      simp only [Document.goodTail, Document.content, DocItem.goodTailList,
        List.tail_cons, Bool.and_eq_true] at hg ⊢
      obtain ⟨⟨hta, hti⟩, hcg, hrest⟩ := hg
      have hrec := DocItem.appendPar_goodI c x c₂ hc hcg hx
      exact ⟨⟨⟨hta, hti⟩, hrec.1, hrest⟩, c₂, rest, rfl, hrec.2, rfl⟩

theorem DocItem.appendPar_goodI : ∀ (c : DocItem) (x : ParItem) (c₂ : DocItem),
    DocItem.appendPar c x = .ok c₂ → c.goodTail = true → x.goodTail = true →
    c₂.goodTail = true ∧ c₂.isEmptyPar = false
  | .paragraph (.mk ps), x, c₂, h, hg, hx => by
    simp only [DocItem.appendPar, Except.ok.injEq] at h
    subst h
    refine ⟨?_, rfl⟩
    simp only [DocItem.goodTail, Paragraph.goodTail, ParItem.goodTailList,
      Bool.and_eq_true] at hg ⊢
    exact ⟨hx, hg⟩
  | .sec l ti d, x, c₂, h, hg, hx => by
    rw [DocItem.appendPar] at h
    cases hd : Document.appendPar d x with
    | error e => rw [hd] at h; simp at h
    | ok d₂ =>
      rw [hd] at h
      simp only [Except.ok.injEq] at h
      subst h
      have hrec := Document.appendPar_goodD d x d₂ hd (by simpa [DocItem.goodTail] using hg) hx
      exact ⟨by simpa [DocItem.goodTail] using hrec.1, rfl⟩

end

mutual

/-- Appending a tokenized source line to the current open `Line` does not
change the emptiness of any paragraph, so it keeps the tree good. -/
theorem Document.appendToLine_goodD : ∀ (d : Document) (sl : SourceLine) (d₂ : Document),
    d.appendToLine sl = .ok d₂ → d.goodTail = true → d₂.goodTail = true
  | .mk _ _ [], _, _, h, _ => by simp [Document.appendToLine] at h
  | .mk i t (c :: rest), sl, d₂, h, hg => by
    rw [Document.appendToLine] at h
    cases hc : DocItem.appendToLine c sl with
    | error e => rw [hc] at h; simp at h
    | ok c₂ =>
      rw [hc] at h
      simp only [Except.ok.injEq] at h
      subst h
      simp only [Document.goodTail, Document.content, DocItem.goodTailList,
        List.tail_cons, Bool.and_eq_true] at hg ⊢
      obtain ⟨⟨hta, hti⟩, hcg, hrest⟩ := hg
      exact ⟨⟨hta, hti⟩, DocItem.appendToLine_goodI c sl c₂ hc hcg, hrest⟩

theorem DocItem.appendToLine_goodI : ∀ (c : DocItem) (sl : SourceLine) (c₂ : DocItem),
    DocItem.appendToLine c sl = .ok c₂ → c.goodTail = true → c₂.goodTail = true
  | .paragraph p, sl, c₂, h, hg => by
    rw [DocItem.appendToLine] at h
    cases hp : Paragraph.appendToLine p sl with
    | error e => rw [hp] at h; simp at h
    | ok p₂ =>
      rw [hp] at h
      simp only [Except.ok.injEq] at h
      subst h
      simpa [DocItem.goodTail] using
        Paragraph.appendToLine_goodP p sl p₂ hp (by simpa [DocItem.goodTail] using hg)
  | .sec l ti d, sl, c₂, h, hg => by
    rw [DocItem.appendToLine] at h
    cases hd : Document.appendToLine d sl with
    | error e => rw [hd] at h; simp at h
    | ok d₂ =>
      rw [hd] at h
      simp only [Except.ok.injEq] at h
      subst h
      simpa [DocItem.goodTail] using
        Document.appendToLine_goodD d sl d₂ hd (by simpa [DocItem.goodTail] using hg)

theorem Paragraph.appendToLine_goodP : ∀ (p : Paragraph) (sl : SourceLine) (p₂ : Paragraph),
    Paragraph.appendToLine p sl = .ok p₂ → p.goodTail = true → p₂.goodTail = true
  | .mk [], _, _, h, _ => by simp [Paragraph.appendToLine] at h
  | .mk (x :: rest), sl, p₂, h, hg => by
    rw [Paragraph.appendToLine] at h
    cases hx : ParItem.appendToLine x sl with
    | error e => rw [hx] at h; simp at h
    | ok x₂ =>
      rw [hx] at h
      simp only [Except.ok.injEq] at h
      subst h
      simp only [Paragraph.goodTail, ParItem.goodTailList, Bool.and_eq_true] at hg ⊢
      exact ⟨ParItem.appendToLine_goodX x sl x₂ hx hg.1, hg.2⟩

theorem ParItem.appendToLine_goodX : ∀ (x : ParItem) (sl : SourceLine) (x₂ : ParItem),
    ParItem.appendToLine x sl = .ok x₂ → x.goodTail = true → x₂.goodTail = true
  | .line sls, sl, x₂, h, _ => by
    simp only [ParItem.appendToLine, Except.ok.injEq] at h
    subst h
    rfl
  | .aside k d, sl, x₂, h, hg => by
    rw [ParItem.appendToLine] at h
    cases hd : Document.appendToLine d sl with
    | error e => rw [hd] at h; simp at h
    | ok d₂ =>
      rw [hd] at h
      simp only [Except.ok.injEq] at h
      subst h
      simpa [ParItem.goodTail] using
        Document.appendToLine_goodD d sl d₂ hd (by simpa [ParItem.goodTail] using hg)
  | .list m d, sl, x₂, h, hg => by
    rw [ParItem.appendToLine] at h
    cases hd : Document.appendToLine d sl with
    | error e => rw [hd] at h; simp at h
    | ok d₂ =>
      rw [hd] at h
      simp only [Except.ok.injEq] at h
      subst h
      simpa [ParItem.goodTail] using
        Document.appendToLine_goodD d sl d₂ hd (by simpa [ParItem.goodTail] using hg)
  | .block lang sls, sl, x₂, h, _ => by
    simp [ParItem.appendToLine] at h

end

mutual

/-- The markers and words of a tree after a trailing-paragraph append all
come from the old tree or from the appended item. -/
theorem Document.appendPar_memD : ∀ (d : Document) (x : ParItem) (d₂ : Document),
    d.appendPar x = .ok d₂ →
    (∀ m ∈ d₂.allMarkers, m ∈ d.allMarkers ∨ m ∈ x.allMarkers) ∧
    (∀ w ∈ d₂.allWords, w ∈ d.allWords ∨ w ∈ x.allWords)
  | .mk _ _ [], x, d₂, h => by simp [Document.appendPar] at h
  | .mk i t (c :: rest), x, d₂, h => by
    rw [Document.appendPar] at h
    cases hc : DocItem.appendPar c x with
    | error e => rw [hc] at h; simp at h
    | ok c₂ =>
      rw [hc] at h
      simp only [Except.ok.injEq] at h
      subst h
      obtain ⟨hm, hw⟩ := DocItem.appendPar_memI c x c₂ hc
      constructor
      · intro m hmem
        simp only [Document.allMarkers, DocItem.allMarkersList, List.mem_append] at hmem ⊢
        rcases hmem with h1 | h2 | h3
        · tauto
        · have := hm m h2; tauto
        · tauto
      · intro w hmem
        simp only [Document.allWords, DocItem.allWordsList, List.mem_append] at hmem ⊢
        rcases hmem with h1 | h2 | h3
        · tauto
        · have := hw w h2; tauto
        · tauto

theorem DocItem.appendPar_memI : ∀ (c : DocItem) (x : ParItem) (c₂ : DocItem),
    DocItem.appendPar c x = .ok c₂ →
    (∀ m ∈ c₂.allMarkers, m ∈ c.allMarkers ∨ m ∈ x.allMarkers) ∧
    (∀ w ∈ c₂.allWords, w ∈ c.allWords ∨ w ∈ x.allWords)
  | .paragraph (.mk ps), x, c₂, h => by
    simp only [DocItem.appendPar, Except.ok.injEq] at h
    subst h
    constructor
    · intro m hmem
      simp only [DocItem.allMarkers, Paragraph.allMarkers, ParItem.allMarkersList,
        List.mem_append] at hmem ⊢
      tauto
    · intro w hmem
      simp only [DocItem.allWords, Paragraph.allWords, ParItem.allWordsList,
        List.mem_append] at hmem ⊢
      tauto
  | .sec l ti d, x, c₂, h => by
    rw [DocItem.appendPar] at h
    cases hd : Document.appendPar d x with
    | error e => rw [hd] at h; simp at h
    | ok d₂ =>
      rw [hd] at h
      simp only [Except.ok.injEq] at h
      subst h
      obtain ⟨hm, hw⟩ := Document.appendPar_memD d x d₂ hd
      exact ⟨by simpa [DocItem.allMarkers] using hm, by simpa [DocItem.allWords] using hw⟩

end

mutual

/-- The markers (resp. words) of a tree after appending a source line to the
open `Line` all come from the old tree (resp. from it or the new line). -/
theorem Document.appendToLine_memD : ∀ (d : Document) (sl : SourceLine) (d₂ : Document),
    d.appendToLine sl = .ok d₂ →
    (∀ m ∈ d₂.allMarkers, m ∈ d.allMarkers) ∧
    (∀ w ∈ d₂.allWords, w ∈ d.allWords ∨ w ∈ sl.content)
  | .mk _ _ [], _, _, h => by simp [Document.appendToLine] at h
  | .mk i t (c :: rest), sl, d₂, h => by
    rw [Document.appendToLine] at h
    cases hc : DocItem.appendToLine c sl with
    | error e => rw [hc] at h; simp at h
    | ok c₂ =>
      rw [hc] at h
      simp only [Except.ok.injEq] at h
      subst h
      obtain ⟨hm, hw⟩ := DocItem.appendToLine_memI c sl c₂ hc
      constructor
      · intro m hmem
        simp only [Document.allMarkers, DocItem.allMarkersList, List.mem_append] at hmem ⊢
        rcases hmem with h1 | h2 | h3
        · tauto
        · have := hm m h2; tauto
        · tauto
      · intro w hmem
        simp only [Document.allWords, DocItem.allWordsList, List.mem_append] at hmem ⊢
        rcases hmem with h1 | h2 | h3
        · tauto
        · have := hw w h2; tauto
        · tauto

theorem DocItem.appendToLine_memI : ∀ (c : DocItem) (sl : SourceLine) (c₂ : DocItem),
    DocItem.appendToLine c sl = .ok c₂ →
    (∀ m ∈ c₂.allMarkers, m ∈ c.allMarkers) ∧
    (∀ w ∈ c₂.allWords, w ∈ c.allWords ∨ w ∈ sl.content)
  | .paragraph p, sl, c₂, h => by
    rw [DocItem.appendToLine] at h
    cases hp : Paragraph.appendToLine p sl with
    | error e => rw [hp] at h; simp at h
    | ok p₂ =>
      rw [hp] at h
      simp only [Except.ok.injEq] at h
      subst h
      obtain ⟨hm, hw⟩ := Paragraph.appendToLine_memP p sl p₂ hp
      exact ⟨by simpa [DocItem.allMarkers] using hm, by simpa [DocItem.allWords] using hw⟩
  | .sec l ti d, sl, c₂, h => by
    rw [DocItem.appendToLine] at h
    cases hd : Document.appendToLine d sl with
    | error e => rw [hd] at h; simp at h
    | ok d₂ =>
      rw [hd] at h
      simp only [Except.ok.injEq] at h
      subst h
      obtain ⟨hm, hw⟩ := Document.appendToLine_memD d sl d₂ hd
      exact ⟨by simpa [DocItem.allMarkers] using hm, by simpa [DocItem.allWords] using hw⟩

theorem Paragraph.appendToLine_memP : ∀ (p : Paragraph) (sl : SourceLine) (p₂ : Paragraph),
    Paragraph.appendToLine p sl = .ok p₂ →
    (∀ m ∈ p₂.allMarkers, m ∈ p.allMarkers) ∧
    (∀ w ∈ p₂.allWords, w ∈ p.allWords ∨ w ∈ sl.content)
  | .mk [], _, _, h => by simp [Paragraph.appendToLine] at h
  | .mk (x :: rest), sl, p₂, h => by
    rw [Paragraph.appendToLine] at h
    cases hx : ParItem.appendToLine x sl with
    | error e => rw [hx] at h; simp at h
    | ok x₂ =>
      rw [hx] at h
      simp only [Except.ok.injEq] at h
      subst h
      obtain ⟨hm, hw⟩ := ParItem.appendToLine_memX x sl x₂ hx
      constructor
      · intro m hmem
        simp only [Paragraph.allMarkers, ParItem.allMarkersList, List.mem_append] at hmem ⊢
        rcases hmem with h1 | h2
        · have := hm m h1; tauto
        · tauto
      · intro w hmem
        simp only [Paragraph.allWords, ParItem.allWordsList, List.mem_append] at hmem ⊢
        rcases hmem with h1 | h2
        · have := hw w h1; tauto
        · tauto

theorem ParItem.appendToLine_memX : ∀ (x : ParItem) (sl : SourceLine) (x₂ : ParItem),
    ParItem.appendToLine x sl = .ok x₂ →
    (∀ m ∈ x₂.allMarkers, m ∈ x.allMarkers) ∧
    (∀ w ∈ x₂.allWords, w ∈ x.allWords ∨ w ∈ sl.content)
  | .line sls, sl, x₂, h => by
    simp only [ParItem.appendToLine, Except.ok.injEq] at h
    subst h
    constructor
    · intro m hmem
      simp [ParItem.allMarkers] at hmem
    · intro w hmem
      simp only [ParItem.allWords, List.map_cons, List.flatten_cons, List.mem_append] at hmem ⊢
      tauto
  | .aside k d, sl, x₂, h => by
    rw [ParItem.appendToLine] at h
    cases hd : Document.appendToLine d sl with
    | error e => rw [hd] at h; simp at h
    | ok d₂ =>
      rw [hd] at h
      simp only [Except.ok.injEq] at h
      subst h
      obtain ⟨hm, hw⟩ := Document.appendToLine_memD d sl d₂ hd
      exact ⟨by simpa [ParItem.allMarkers] using hm, by simpa [ParItem.allWords] using hw⟩
  | .list m d, sl, x₂, h => by
    rw [ParItem.appendToLine] at h
    cases hd : Document.appendToLine d sl with
    | error e => rw [hd] at h; simp at h
    | ok d₂ =>
      rw [hd] at h
      simp only [Except.ok.injEq] at h
      subst h
      obtain ⟨hm, hw⟩ := Document.appendToLine_memD d sl d₂ hd
      constructor
      · intro m₂ hmem
        simp only [ParItem.allMarkers, List.mem_cons] at hmem ⊢
        rcases hmem with h1 | h2
        · tauto
        · have := hm m₂ h2; tauto
      · intro w hmem
        simp only [ParItem.allWords] at hmem ⊢
        exact hw w hmem
  | .block lang sls, sl, x₂, h => by
    simp [ParItem.appendToLine] at h

end

theorem all_of_tail {α : Type} (p : α → Bool) (l : List α) (h : l.all p = true) :
    l.tail.all p = true := by
  cases l with
  | nil => exact h
  | cons x xs => simp only [List.all_cons, Bool.and_eq_true] at h; exact h.2

/-- If the deep trailing paragraph is non-empty, the head of the content is
not an empty paragraph; combined with goodness of the tail, the whole
content is free of empty paragraphs. -/
theorem content_all_of_paragraphProp (i : Nat) (t : Option DocItem)
    (c : List DocItem) (p : Paragraph)
    (hp : Document.paragraphProp (.mk i t c) = .ok p) (hpne : p.empty = false)
    (hg : Document.goodTail (.mk i t c) = true) :
    c.all (fun x => !x.isEmptyPar) = true := by
  cases c with
  | nil => simp [Document.paragraphProp] at hp
  | cons x rest =>
    simp only [Document.goodTail, Document.content, List.tail_cons, Bool.and_eq_true] at hg
    simp only [List.all_cons, Bool.and_eq_true]
    refine ⟨?_, hg.1.1⟩
    cases x with
    | paragraph q =>
      simp only [Document.paragraphProp, DocItem.paragraphProp, Except.ok.injEq] at hp
      subst hp
      simp [DocItem.isEmptyPar, hpne]
    | sec l ti d => rfl

theorem appendContent_good (d : Document) (x : DocItem)
    (hg : d.goodTail = true) (hall : d.content.all (fun y => !y.isEmptyPar) = true)
    (hx : x.goodTail = true) : (d.appendContent x).goodTail = true := by
  obtain ⟨i, t, c⟩ := d
  simp only [Document.content] at hall
  simp only [Document.appendContent, Document.goodTail, Document.content, List.tail_cons,
    DocItem.goodTailList, Bool.and_eq_true] at hg ⊢
  exact ⟨⟨hall, hg.1.2⟩, hx, hg.2⟩

theorem appendContent_mem (d : Document) (x : DocItem) :
    (∀ m ∈ (d.appendContent x).allMarkers, m ∈ d.allMarkers ∨ m ∈ x.allMarkers) ∧
    (∀ w ∈ (d.appendContent x).allWords, w ∈ d.allWords ∨ w ∈ x.allWords) := by
  obtain ⟨i, t, c⟩ := d
  constructor
  · intro m hm
    simp only [Document.appendContent, Document.allMarkers, DocItem.allMarkersList,
      List.mem_append] at hm ⊢
    tauto
  · intro w hw
    simp only [Document.appendContent, Document.allWords, DocItem.allWordsList,
      List.mem_append] at hw ⊢
    tauto

/-- `document().pop()` returns a good element and a good shrunk document,
and invents no markers or words. -/
theorem popContent_props (d : Document) (x : DocItem) (d₂ : Document)
    (h : d.popContent = .ok (x, d₂)) (hg : d.goodTail = true) :
    d₂.goodTail = true ∧ x.goodTail = true ∧
    (∀ m ∈ d₂.allMarkers, m ∈ d.allMarkers) ∧ (∀ m ∈ x.allMarkers, m ∈ d.allMarkers) ∧
    (∀ w ∈ d₂.allWords, w ∈ d.allWords) ∧ (∀ w ∈ x.allWords, w ∈ d.allWords) ∧
    d.content = x :: d₂.content := by
  obtain ⟨i, t, c⟩ := d
  cases c with
  | nil => simp [Document.popContent] at h
  | cons y ys =>
    simp only [Document.popContent, Except.ok.injEq, Prod.mk.injEq] at h
    obtain ⟨rfl, rfl⟩ := h
    simp only [Document.goodTail, Document.content, List.tail_cons, DocItem.goodTailList,
      Bool.and_eq_true] at hg
    refine ⟨?_, hg.2.1, ?_, ?_, ?_, ?_, rfl⟩
    · simp only [Document.goodTail, Document.content, Bool.and_eq_true]
      exact ⟨⟨all_of_tail _ ys hg.1.1, hg.1.2⟩, hg.2.2⟩
    · intro m hm
      simp only [Document.allMarkers, DocItem.allMarkersList, List.mem_append] at hm ⊢
      tauto
    · intro m hm
      simp only [Document.allMarkers, DocItem.allMarkersList, List.mem_append]
      tauto
    · intro w hw
      simp only [Document.allWords, DocItem.allWordsList, List.mem_append] at hw ⊢
      tauto
    · intro w hw
      simp only [Document.allWords, DocItem.allWordsList, List.mem_append]
      tauto

/-- Installing a child document at its plug point keeps the parent good and,
because the plug point is (or becomes) a non-empty trailing element over a
content whose other elements are non-empty, leaves the whole content free of
empty paragraphs. -/
theorem plugIn_good (parent : Document) (plug : Plug) (child : Document)
    (parent₂ : Document) (h : plugIn parent plug child = .ok parent₂)
    (hpg : parent.goodTail = true)
    (hsec : Frame.sectionAll ⟨parent, plug⟩ = true)
    (hcg : child.goodTail = true) :
    parent₂.goodTail = true ∧
      parent₂.content.all (fun x => !x.isEmptyPar) = true := by
  cases plug with
  | sec level title =>
    simp only [plugIn, Except.ok.injEq] at h
    subst h
    obtain ⟨i, t, c⟩ := parent
    simp only [Frame.sectionAll] at hsec
    simp only [Document.appendContent, Document.goodTail, Document.content, List.tail_cons,
      DocItem.goodTailList, Bool.and_eq_true, List.all_cons] at hpg hsec ⊢
    exact ⟨⟨⟨hsec, hpg.1.2⟩, (by simpa [DocItem.goodTail] using hcg), hpg.2⟩, rfl, hsec⟩
  | aside kind =>
    simp only [plugIn] at h
    obtain ⟨hg2, y, ys, hcont, hy, hys⟩ :=
      Document.appendPar_goodD parent _ parent₂ h hpg (by simpa [ParItem.goodTail] using hcg)
    refine ⟨hg2, ?_⟩
    rw [hcont]
    simp only [List.all_cons, Bool.and_eq_true, hy, Bool.not_false]
    refine ⟨trivial, ?_⟩
    subst hys
    obtain ⟨i, t, c⟩ := parent
    simp only [Document.goodTail, Document.content, Bool.and_eq_true] at hpg
    exact hpg.1.1
  | list marker =>
    simp only [plugIn] at h
    obtain ⟨hg2, y, ys, hcont, hy, hys⟩ :=
      Document.appendPar_goodD parent _ parent₂ h hpg (by simpa [ParItem.goodTail] using hcg)
    refine ⟨hg2, ?_⟩
    rw [hcont]
    simp only [List.all_cons, Bool.and_eq_true, hy, Bool.not_false]
    refine ⟨trivial, ?_⟩
    subst hys
    obtain ⟨i, t, c⟩ := parent
    simp only [Document.goodTail, Document.content, Bool.and_eq_true] at hpg
    exact hpg.1.1

/-- The markers and words of a plugged parent come from the parent, the plug
or the child. -/
theorem plugIn_mem (parent : Document) (plug : Plug) (child : Document)
    (parent₂ : Document) (h : plugIn parent plug child = .ok parent₂) :
    (∀ m ∈ parent₂.allMarkers,
      m ∈ parent.allMarkers ∨ m ∈ plug.markers ∨ m ∈ child.allMarkers) ∧
    (∀ w ∈ parent₂.allWords, w ∈ parent.allWords ∨ w ∈ child.allWords) := by
  cases plug with
  | sec level title =>
    simp only [plugIn, Except.ok.injEq] at h
    subst h
    obtain ⟨hm, hw⟩ := appendContent_mem parent (.sec level title child)
    constructor
    · intro m hmem
      rcases hm m hmem with h1 | h2
      · tauto
      · simp only [DocItem.allMarkers] at h2; tauto
    · intro w hmem
      rcases hw w hmem with h1 | h2
      · tauto
      · simp only [DocItem.allWords] at h2; tauto
  | aside kind =>
    simp only [plugIn] at h
    obtain ⟨hm, hw⟩ := Document.appendPar_memD parent _ parent₂ h
    constructor
    · intro m hmem
      rcases hm m hmem with h1 | h2
      · tauto
      · simp only [ParItem.allMarkers] at h2; tauto
    · intro w hmem
      rcases hw w hmem with h1 | h2
      · tauto
      · simp only [ParItem.allWords] at h2; tauto
  | list marker =>
    simp only [plugIn] at h
    obtain ⟨hm, hw⟩ := Document.appendPar_memD parent _ parent₂ h
    constructor
    · intro m hmem
      rcases hm m hmem with h1 | h2
      · tauto
      · simp only [ParItem.allMarkers, List.mem_cons] at h2
        simp only [Plug.markers, List.mem_cons]
        tauto
    · intro w hmem
      rcases hw w hmem with h1 | h2
      · tauto
      · simp only [ParItem.allWords] at h2; tauto

/-- One pop keeps the resulting parent good and introduces no markers or
words beyond those of the popped child and its frame. -/
theorem popOnce_inv (prev : Document) (f : Frame) (top₂ : Document)
    (h : popOnce prev f = .ok top₂)
    (hprev : prev.goodTail = true) (hf : f.goodTail = true) :
    top₂.goodTail = true ∧
    (∀ m ∈ top₂.allMarkers, m ∈ prev.allMarkers ∨ m ∈ f.markers) ∧
    (∀ w ∈ top₂.allWords, w ∈ prev.allWords ∨ w ∈ f.words) := by
  have hfg : f.doc.goodTail = true := by
    simp only [Frame.goodTail, Bool.and_eq_true] at hf
    exact hf.1
  have hfs : Frame.sectionAll ⟨f.doc, f.plug⟩ = true := by
    simp only [Frame.goodTail, Bool.and_eq_true] at hf
    exact hf.2
  have plugCase : ∀ top₃, plugIn f.doc f.plug prev = .ok top₃ →
      top₃.goodTail = true ∧
      (∀ m ∈ top₃.allMarkers, m ∈ prev.allMarkers ∨ m ∈ f.markers) ∧
      (∀ w ∈ top₃.allWords, w ∈ prev.allWords ∨ w ∈ f.words) := by
    intro top₃ hpl
    obtain ⟨hg, _⟩ := plugIn_good f.doc f.plug prev top₃ hpl hfg hfs hprev
    obtain ⟨hm, hw⟩ := plugIn_mem f.doc f.plug prev top₃ hpl
    refine ⟨hg, ?_, ?_⟩
    · intro m hmem
      rcases hm m hmem with h1 | h2 | h3
      · exact Or.inr (by simp only [Frame.markers, List.mem_append]; tauto)
      · exact Or.inr (by simp only [Frame.markers, List.mem_append]; tauto)
      · exact Or.inl h3
    · intro w hmem
      rcases hw w hmem with h1 | h2
      · exact Or.inr h1
      · exact Or.inl h2
  unfold popOnce at h
  cases he : prev.emptyE with
  | error e => rw [he] at h; simp [err_bind] at h
  | ok b =>
    rw [he, ok_bind] at h
    cases b with
    | true =>
      simp only [if_true, eq_self_iff_true] at h
      exact plugCase top₂ h
    | false =>
      simp only [Bool.false_eq_true, if_false] at h
      cases hp : prev.paragraphProp with
      | error e => rw [hp] at h; simp [err_bind] at h
      | ok p =>
        rw [hp, ok_bind] at h
        by_cases hpe : p.empty
        · rw [hpe] at h
          simp only [if_true, eq_self_iff_true] at h
          cases hpc : prev.popContent with
          | error e => rw [hpc] at h; simp [err_bind] at h
          | ok xd =>
            rw [hpc, ok_bind] at h
            obtain ⟨x, prev₂⟩ := xd
            cases hpl : plugIn f.doc f.plug prev₂ with
            | error e => rw [hpl] at h; simp [err_bind] at h
            | ok parent =>
              rw [hpl, ok_bind] at h
              have htop := Except.ok.inj h
              obtain ⟨hg2, hxg, hm2, hxm, hw2, hxw, _⟩ := popContent_props prev x prev₂ hpc hprev
              obtain ⟨hpg, hall⟩ := plugIn_good f.doc f.plug prev₂ parent hpl hfg hfs hg2
              obtain ⟨hpm, hpw⟩ := plugIn_mem f.doc f.plug prev₂ parent hpl
              obtain ⟨hcm, hcw⟩ := appendContent_mem parent x
              subst htop
              refine ⟨appendContent_good parent x hpg hall hxg, ?_, ?_⟩
              · intro m hmem
                rcases hcm m hmem with h1 | h2
                · rcases hpm m h1 with h3 | h4 | h5
                  · exact Or.inr (by simp only [Frame.markers, List.mem_append]; tauto)
                  · exact Or.inr (by simp only [Frame.markers, List.mem_append]; tauto)
                  · exact Or.inl (hm2 m h5)
                · exact Or.inl (hxm m h2)
              · intro w hmem
                rcases hcw w hmem with h1 | h2
                · rcases hpw w h1 with h3 | h4
                  · exact Or.inr h3
                  · exact Or.inl (hw2 w h4)
                · exact Or.inl (hxw w h2)
        · rw [eq_false_of_ne_true hpe] at h
          simp only [Bool.false_eq_true, if_false] at h
          exact plugCase top₂ h

/-- The pop loop keeps all stack entries good and introduces no markers or
words. -/
theorem popLoop_inv : ∀ (frames : List Frame) (top : Document) (text : Str)
    (top₂ : Document) (frames₂ : List Frame),
    popLoop top frames text = .ok (top₂, frames₂) →
    top.goodTail = true → (∀ f ∈ frames, f.goodTail = true) →
    top₂.goodTail = true ∧ (∀ f ∈ frames₂, f.goodTail = true) ∧
    (∀ m ∈ top₂.allMarkers ++ (frames₂.map Frame.markers).flatten,
      m ∈ top.allMarkers ++ (frames.map Frame.markers).flatten) ∧
    (∀ w ∈ top₂.allWords ++ (frames₂.map Frame.words).flatten,
      w ∈ top.allWords ++ (frames.map Frame.words).flatten)
  | [], top, text, top₂, frames₂, h, htg, hfg => by
    simp only [popLoop, Except.ok.injEq, Prod.mk.injEq] at h
    obtain ⟨rfl, rfl⟩ := h
    exact ⟨htg, hfg, fun m hm => hm, fun w hw => hw⟩
  | f :: rest, top, text, top₂, frames₂, h, htg, hfg => by
    rw [popLoop] at h
    by_cases hguard : (0 < text.length &&
        !isBlank (text.take (top.indent + f.doc.indent +
          (rest.map (fun g => g.doc.indent)).sum))) = true
    · rw [if_pos hguard] at h
      cases hpo : popOnce top f with
      | error e => rw [hpo] at h; simp at h
      | ok top₃ =>
        rw [hpo] at h
        obtain ⟨hg3, hm3, hw3⟩ := popOnce_inv top f top₃ hpo htg
          (hfg f (List.mem_cons_self f rest))
        obtain ⟨hg2, hf2, hm2, hw2⟩ := popLoop_inv rest top₃ text top₂ frames₂ h hg3
          (fun g hg => hfg g (List.mem_cons_of_mem f hg))
        refine ⟨hg2, hf2, ?_, ?_⟩
        · intro m hm
          simp only [List.mem_append, List.map_cons, List.flatten_cons]
          rcases List.mem_append.mp (hm2 m hm) with h1 | h2
          · rcases hm3 m h1 with h3 | h4
            · tauto
            · tauto
          · tauto
        · intro w hw
          simp only [List.mem_append, List.map_cons, List.flatten_cons]
          rcases List.mem_append.mp (hw2 w hw) with h1 | h2
          · rcases hw3 w h1 with h3 | h4
            · tauto
            · tauto
          · tauto
    · rw [if_neg hguard] at h
      simp only [Except.ok.injEq, Prod.mk.injEq] at h
      obtain ⟨rfl, rfl⟩ := h
      exact ⟨htg, hfg, fun m hm => hm, fun w hw => hw⟩

/-- The claim phase only ever changes the indent width of the current
document. -/
theorem claimPhase_shape (s : PState) (text : Str) (ref : Nat) (s₂ : PState) (text₂ : Str)
    (h : claimPhase s text ref = .ok (s₂, text₂)) :
    ∃ i₂, s₂ = ⟨Document.mk i₂ s.top.title s.top.content, s.frames⟩ := by
  unfold claimPhase at h
  cases he : s.top.emptyE with
  | error e => rw [he] at h; simp [err_bind] at h
  | ok b =>
    rw [he, ok_bind] at h
    cases b with
    | false =>
      simp only [Bool.false_eq_true, if_false, Except.ok.injEq, Prod.mk.injEq] at h
      obtain ⟨rfl, rfl⟩ := h
      obtain ⟨⟨i, t, c⟩, frames⟩ := s
      exact ⟨i, rfl⟩
    | true =>
      simp only [if_true, eq_self_iff_true] at h
      split at h
      · simp at h
      · simp only [Except.ok.injEq, Prod.mk.injEq] at h
        exact ⟨s.top.indent + (text.takeWhile pySpace).length, h.1.symm⟩

theorem claimPhase_inv (s : PState) (text : Str) (ref : Nat) (s₂ : PState) (text₂ : Str)
    (h : claimPhase s text ref = .ok (s₂, text₂)) (hinv : stateInv s) : stateInv s₂ := by
  obtain ⟨i₂, rfl⟩ := claimPhase_shape s text ref s₂ text₂ h
  obtain ⟨h1, h2, h3, h4⟩ := hinv
  obtain ⟨⟨i, t, c⟩, frames⟩ := s
  exact ⟨h1, h2, h3, h4⟩

theorem sigilFlag_align (c : Char) (flag : Nat) (h : sigilFlag c = some flag) :
    flag &&& Modifier.ALIGN = 0 ∧ (flag ||| Modifier.WITH_SPACES) &&& Modifier.ALIGN = 0 := by
  unfold sigilFlag at h
  repeat' split at h
  all_goals first | (cases h; decide) | simp at h

/-- The word loop never creates a word with the `ALIGN` bit: no sigil maps
to `ALIGN`, so the running modifier keeps `ALIGN` clear and every emitted
word inherits an `ALIGN`-free state. -/
theorem tokenizeGo_align (ref : Nat) : ∀ (ws : List Str) (modifier : Nat) (acc : List Word),
    modifier &&& Modifier.ALIGN = 0 → (∀ w ∈ acc, w.modifier &&& Modifier.ALIGN = 0) →
    ∀ out, tokenizeGo ref ws modifier acc = .ok out →
    ∀ w ∈ out, w.modifier &&& Modifier.ALIGN = 0 := by
  intro ws
  induction ws with
  | nil =>
    intro modifier acc hm hacc out h
    simp only [tokenizeGo, Except.ok.injEq] at h
    subst h
    exact hacc
  | cons w rest ih =>
    intro modifier acc hm hacc out h
    rw [tokenizeGo.eq_def] at h
    cases w with
    | nil =>
      dsimp only at h
      exact ih modifier acc hm hacc out h
    | cons c cs =>
      dsimp only at h
      cases hf : sigilFlag c with
      | some flag =>
        rw [hf] at h
        refine ih _ acc ?_ hacc out h
        have ha := sigilFlag_align c flag hf
        rw [Nat.and_xor_distrib_right, hm]
        split
        · rw [ha.2]; decide
        · rw [ha.1]; decide
      | none =>
        rw [hf] at h
        dsimp only at h
        split at h
        · simp at h
        · refine ih _ _ ?_ ?_ out h
          · have : (modifier &&& Modifier.ALIGN != 0) = false := by
              rw [hm]; rfl
            rw [this]
            simp only [Bool.false_eq_true, if_false]
            exact hm
          · intro w hw
            rcases List.mem_cons.mp hw with rfl | hw2
            · exact hm
            · exact hacc w hw2

/-- Every word a fence scan captures carries exactly the `BLOCK` modifier,
which is `ALIGN`-free. -/
theorem scanBlock_align (ind idx : Nat) (lines : List Str) (captured : List SourceLine)
    (k : Nat) (h : scanBlock ind idx lines = .ok (captured, k)) :
    ∀ sl ∈ captured, ∀ w ∈ sl.content, w.modifier &&& Modifier.ALIGN = 0 := by
  obtain ⟨body, closer, rest, _, _, _, _, hcap⟩ := scanBlock_spec ind idx lines captured k h
  subst hcap
  intro sl hsl w hw
  obtain ⟨i, hi, heq⟩ := List.exists_of_mem_mapIdx hsl
  rw [← heq] at hw
  simp only [List.mem_singleton] at hw
  subst hw
  show Modifier.BLOCK &&& Modifier.ALIGN = 0
  decide

theorem pstate_markers_mem (top : Document) (frames : List Frame) (m : Str) :
    m ∈ PState.markers ⟨top, frames⟩ ↔
      m ∈ top.allMarkers ∨ m ∈ (frames.map Frame.markers).flatten := by
  simp [PState.markers]

theorem pstate_words_mem (top : Document) (frames : List Frame) (w : Word) :
    w ∈ PState.words ⟨top, frames⟩ ↔
      w ∈ top.allWords ∨ w ∈ (frames.map Frame.words).flatten := by
  simp [PState.words]

/-- The blank-line / new-line / tokenization tail of the loop body preserves
the running invariant. -/
theorem textBody_inv (top : Document) (frames : List Frame) (lineno : Nat) (text : Str)
    (rest : List Str) (s₂ : PState) (rest₂ : List Str)
    (h : textBody ⟨top, frames⟩ lineno text rest = .ok (s₂, rest₂))
    (hinv : stateInv ⟨top, frames⟩) : stateInv s₂ := by
  obtain ⟨h1, h2, h3, h4⟩ := hinv
  unfold textBody at h
  dsimp only at h
  by_cases hb : isBlank text = true
  · rw [hb] at h
    simp only [eq_self_iff_true, if_true] at h
    cases hp : top.paragraphProp with
    | error e => rw [hp] at h; simp [err_bind] at h
    | ok p =>
      rw [hp, ok_bind] at h
      by_cases hpe : p.empty = true
      · rw [hpe] at h
        simp only [eq_self_iff_true, if_true] at h
        have h0 : ((⟨top, frames⟩ : PState), rest) = (s₂, rest₂) := Except.ok.inj h
        simp only [Prod.mk.injEq] at h0
        obtain ⟨rfl, rfl⟩ := h0
        exact ⟨h1, h2, h3, h4⟩
      · rw [eq_false_of_ne_true hpe] at h
        simp only [Bool.false_eq_true, if_false] at h
        have h0 := Except.ok.inj h
        simp only [Prod.mk.injEq] at h0
        obtain ⟨hs, hr⟩ := h0
        subst hs
        obtain ⟨i, t, c⟩ := top
        have hall := content_all_of_paragraphProp i t c p hp (eq_false_of_ne_true hpe) h1
        refine ⟨appendContent_good _ _ h1 hall rfl, h2, ?_, ?_⟩
        · intro m hm
          rw [pstate_markers_mem] at hm
          rcases hm with hm | hm
          · rcases (appendContent_mem _ _).1 m hm with hm2 | hm2
            · exact h3 m (by rw [pstate_markers_mem]; exact Or.inl hm2)
            · simp [DocItem.allMarkers, Paragraph.allMarkers, ParItem.allMarkersList] at hm2
          · exact h3 m (by rw [pstate_markers_mem]; exact Or.inr hm)
        · intro w hw
          rw [pstate_words_mem] at hw
          rcases hw with hw | hw
          · rcases (appendContent_mem _ _).2 w hw with hw2 | hw2
            · exact h4 w (by rw [pstate_words_mem]; exact Or.inl hw2)
            · simp [DocItem.allWords, Paragraph.allWords, ParItem.allWordsList] at hw2
          · exact h4 w (by rw [pstate_words_mem]; exact Or.inr hw)
  · rw [eq_false_of_ne_true hb] at h
    simp only [Bool.false_eq_true, if_false] at h
    -- the new-line / continuation binder
    have main : ∀ (top₃ : Document) (text₃ : Str), top₃.goodTail = true →
        (∀ m ∈ top₃.allMarkers, m ∈ Document.allMarkers top) →
        (∀ w ∈ top₃.allWords, w ∈ Document.allWords top) →
        ∀ (emitted : List Word),
        tokenizeGo (lineno + 1) (splitKeep (rstrip text₃)) Modifier.NONE [] = .ok emitted →
        ∀ (top₄ : Document),
        top₃.appendToLine (SourceLine.mk (lineno + 1) emitted) = .ok top₄ →
        s₂ = ⟨top₄, frames⟩ → stateInv s₂ := by
      intro top₃ text₃ hg3 hm3 hw3 emitted hemit top₄ happ hs₂
      subst hs₂
      have hal : ∀ w ∈ emitted, w.modifier &&& Modifier.ALIGN = 0 :=
        tokenizeGo_align (lineno + 1) _ Modifier.NONE [] (by decide)
          (by intro w hw; simp at hw) emitted hemit
      obtain ⟨hmm, hww⟩ := Document.appendToLine_memD top₃ _ top₄ happ
      refine ⟨Document.appendToLine_goodD top₃ _ top₄ happ hg3, h2, ?_, ?_⟩
      · intro m hm
        rw [pstate_markers_mem] at hm
        rcases hm with hm | hm
        · exact h3 m (by rw [pstate_markers_mem]; exact Or.inl (hm3 m (hmm m hm)))
        · exact h3 m (by rw [pstate_markers_mem]; exact Or.inr hm)
      · intro w hw
        rw [pstate_words_mem] at hw
        rcases hw with hw | hw
        · rcases hww w hw with hw2 | hw2
          · exact h4 w (by rw [pstate_words_mem]; exact Or.inl (hw3 w hw2))
          · exact hal w hw2
        · exact h4 w (by rw [pstate_words_mem]; exact Or.inr hw)
    by_cases hsp : pySpace (text.headD 'x') = true
    · rw [hsp] at h
      simp only [Bool.not_true, Bool.false_eq_true, if_false] at h
      cases hp : top.paragraphProp with
      | error e => rw [hp] at h; simp [err_bind] at h
      | ok p =>
        rw [hp, ok_bind] at h
        by_cases hpe : p.empty = true
        · rw [hpe] at h; simp [err_bind] at h
        · rw [eq_false_of_ne_true hpe] at h
          simp only [Bool.false_eq_true, if_false, ok_bind] at h
          simp only [pure_bind] at h
          cases hemit : tokenizeGo (lineno + 1) (splitKeep (rstrip (lstrip text)))
              Modifier.NONE [] with
          | error e => rw [hemit] at h; simp [err_bind] at h
          | ok emitted =>
            rw [hemit, ok_bind] at h
            cases happ : top.appendToLine (SourceLine.mk (lineno + 1) emitted) with
            | error e => rw [happ] at h; simp [err_bind] at h
            | ok top₄ =>
              rw [happ, ok_bind] at h
              have h0 := Except.ok.inj h
              simp only [Prod.mk.injEq] at h0
              exact main top (lstrip text) h1 (fun m hm => hm) (fun w hw => hw)
                emitted hemit top₄ happ h0.1.symm
    · rw [eq_false_of_ne_true hsp] at h
      simp only [Bool.not_false, if_true, eq_self_iff_true] at h
      cases hap : top.appendPar (.line []) with
      | error e => rw [hap] at h; simp [err_bind] at h
      | ok top₃ =>
        rw [hap, ok_bind] at h
        simp only [pure_bind] at h
        cases hemit : tokenizeGo (lineno + 1) (splitKeep (rstrip text)) Modifier.NONE [] with
        | error e => rw [hemit] at h; simp [err_bind] at h
        | ok emitted =>
          rw [hemit, ok_bind] at h
          cases happ : top₃.appendToLine (SourceLine.mk (lineno + 1) emitted) with
          | error e => rw [happ] at h; simp [err_bind] at h
          | ok top₄ =>
            rw [happ, ok_bind] at h
            have h0 := Except.ok.inj h
            simp only [Prod.mk.injEq] at h0
            obtain ⟨hg3, _⟩ := Document.appendPar_goodD top _ top₃ hap h1 rfl
            obtain ⟨hm3, hw3⟩ := Document.appendPar_memD top _ top₃ hap
            refine main top₃ text hg3 ?_ ?_ emitted hemit top₄ happ h0.1.symm
            · intro m hm
              rcases hm3 m hm with hm2 | hm2
              · exact hm2
              · simp [ParItem.allMarkers] at hm2
            · intro w hw
              rcases hw3 w hw with hw2 | hw2
              · exact hw2
              · simp [ParItem.allWords] at hw2

/-- Opening a nested scope (heading, aside or list) preserves the invariant
provided the suspended parent meets the section-plug side condition and any
plug marker really is a consumed match. -/
theorem pushFrame_inv (top : Document) (frames : List Frame) (plug : Plug)
    (virtIndent : Nat) (hinv : stateInv ⟨top, frames⟩)
    (hsa : Frame.sectionAll ⟨top, plug⟩ = true)
    (hpm : ∀ m ∈ plug.markers, isConsumedMarker m) :
    stateInv ⟨Document.mk virtIndent none [.paragraph (.mk [])],
      Frame.mk top plug :: frames⟩ := by
  obtain ⟨h1, h2, h3, h4⟩ := hinv
  refine ⟨rfl, ?_, ?_, ?_⟩
  · intro f hf
    rcases List.mem_cons.mp hf with rfl | hf2
    · simp only [Frame.goodTail, Bool.and_eq_true]
      exact ⟨h1, hsa⟩
    · exact h2 f hf2
  · intro m hm
    rw [pstate_markers_mem] at hm
    rcases hm with hm | hm
    · simp [Document.allMarkers, DocItem.allMarkersList, DocItem.allMarkersOpt,
        DocItem.allMarkers, Paragraph.allMarkers, ParItem.allMarkersList] at hm
    · simp only [List.map_cons, List.flatten_cons, List.mem_append] at hm
      rcases hm with hm | hm
      · simp only [Frame.markers, List.mem_append] at hm
        rcases hm with hm | hm
        · exact hpm m hm
        · exact h3 m (by rw [pstate_markers_mem]; exact Or.inl hm)
      · exact h3 m (by rw [pstate_markers_mem]; exact Or.inr hm)
  · intro w hw
    rw [pstate_words_mem] at hw
    rcases hw with hw | hw
    · simp [Document.allWords, DocItem.allWordsList, DocItem.allWordsOpt,
        DocItem.allWords, Paragraph.allWords, ParItem.allWordsList] at hw
    · simp only [List.map_cons, List.flatten_cons, List.mem_append] at hw
      rcases hw with hw | hw
      · simp only [Frame.words] at hw
        exact h4 w (by rw [pstate_words_mem]; exact Or.inl hw)
      · exact h4 w (by rw [pstate_words_mem]; exact Or.inr hw)

/-- The classifier body (title, heading, fence, aside, list, then the text
tail) preserves the running invariant. -/
theorem lineBody_inv (top : Document) (frames : List Frame) (lineno : Nat) (text : Str)
    (rest : List Str) (s₂ : PState) (rest₂ : List Str)
    (h : lineBody ⟨top, frames⟩ lineno text rest = .ok (s₂, rest₂))
    (hinv : stateInv ⟨top, frames⟩) : stateInv s₂ := by
  have hfinish : ∀ (sT : Document) (sF : List Frame) (tx : Str),
      stateInv ⟨sT, sF⟩ → textBody ⟨sT, sF⟩ lineno tx rest = .ok (s₂, rest₂) →
      stateInv s₂ := by
    intro sT sF tx hi ht
    exact textBody_inv sT sF lineno tx rest s₂ rest₂ ht hi
  obtain ⟨h1, h2, h3, h4⟩ := hinv
  unfold lineBody at h
  dsimp only at h
  by_cases t1 : hasPrefixS ['-', '-', '-'] text = true
  · -- title branch
    rw [t1] at h
    simp only [eq_self_iff_true, if_true] at h
    cases hpc : top.popContent with
    | error e => rw [hpc] at h; simp [err_bind] at h
    | ok xd =>
      rw [hpc, ok_bind] at h
      obtain ⟨x, top₂⟩ := xd
      have h0 := Except.ok.inj h
      simp only [Prod.mk.injEq] at h0
      obtain ⟨hs, _⟩ := h0
      subst hs
      obtain ⟨hg2, hxg, hm2, hxm, hw2, hxw, hcont⟩ := popContent_props top x top₂ hpc h1
      obtain ⟨i, t, c⟩ := top
      obtain ⟨i₂, t₂, c₂⟩ := top₂
      simp only [Document.content] at hcont
      subst hcont
      simp only [Document.indent, Document.content, Document.title]
      refine ⟨?_, h2, ?_, ?_⟩
      · -- goodness of the retitled document
        simp only [Document.goodTail, Document.content, List.tail_cons, DocItem.goodTailList,
          Document.goodTitle, Bool.and_eq_true] at h1 hg2 ⊢
        exact ⟨⟨h1.1.1, hxg⟩, rfl, hg2.2⟩
      · intro m hm
        rw [pstate_markers_mem] at hm
        rcases hm with hm | hm
        · simp only [Document.allMarkers, DocItem.allMarkersOpt, DocItem.allMarkersList,
            Document.content, Document.title, List.mem_append] at hm
          rcases hm with hm | hm | hm
          · exact h3 m (by
              rw [pstate_markers_mem]
              exact Or.inl (hxm m hm))
          · simp [DocItem.allMarkers, Paragraph.allMarkers, ParItem.allMarkersList] at hm
          · refine h3 m (by
              rw [pstate_markers_mem]
              refine Or.inl (hm2 m ?_)
              simp only [Document.allMarkers, Document.content, Document.title,
                List.mem_append]
              exact Or.inr hm)
        · exact h3 m (by rw [pstate_markers_mem]; exact Or.inr hm)
      · intro w hw
        rw [pstate_words_mem] at hw
        rcases hw with hw | hw
        · simp only [Document.allWords, DocItem.allWordsOpt, DocItem.allWordsList,
            Document.content, Document.title, List.mem_append] at hw
          rcases hw with hw | hw | hw
          · exact h4 w (by
              rw [pstate_words_mem]
              exact Or.inl (hxw w hw))
          · simp [DocItem.allWords, Paragraph.allWords, ParItem.allWordsList] at hw
          · refine h4 w (by
              rw [pstate_words_mem]
              refine Or.inl (hw2 w ?_)
              simp only [Document.allWords, Document.content, Document.title,
                List.mem_append]
              exact Or.inr hw)
        · exact h4 w (by rw [pstate_words_mem]; exact Or.inr hw)
  · rw [eq_false_of_ne_true t1] at h
    simp only [Bool.false_eq_true, if_false] at h
    cases hh : headingMatch text with
    | some lpt =>
      rw [hh] at h
      dsimp only at h
      obtain ⟨level, pad, title⟩ := lpt
      cases hpp : top.paragraphProp with
      | error e => rw [hpp] at h; simp [err_bind] at h
      | ok p =>
        rw [hpp, ok_bind] at h
        by_cases hpe : p.empty = true
        · rw [hpe] at h
          simp only [eq_self_iff_true, if_true] at h
          cases hpc : top.popContent with
          | error e => rw [hpc] at h; simp [err_bind] at h
          | ok xd =>
            rw [hpc, ok_bind] at h
            simp only [pure_bind] at h
            obtain ⟨x, topA⟩ := xd
            have h0 := Except.ok.inj h
            simp only [Prod.mk.injEq] at h0
            obtain ⟨hs, _⟩ := h0
            subst hs
            obtain ⟨hgA, _, hmA, _, hwA, _, hcont⟩ := popContent_props top x topA hpc h1
            refine pushFrame_inv topA frames (.sec level title) (level + pad + 1)
              ⟨hgA, h2, ?_, ?_⟩ ?_ (by intro m hm; simp [Plug.markers] at hm)
            · intro m hm
              rw [pstate_markers_mem] at hm
              rcases hm with hm | hm
              · exact h3 m (by rw [pstate_markers_mem]; exact Or.inl (hmA m hm))
              · exact h3 m (by rw [pstate_markers_mem]; exact Or.inr hm)
            · intro w hw
              rw [pstate_words_mem] at hw
              rcases hw with hw | hw
              · exact h4 w (by rw [pstate_words_mem]; exact Or.inl (hwA w hw))
              · exact h4 w (by rw [pstate_words_mem]; exact Or.inr hw)
            · -- popped trailing empty paragraph: the rest has no empty pars
              simp only [Frame.sectionAll]
              obtain ⟨i, t, c⟩ := top
              obtain ⟨iA, tA, cA⟩ := topA
              simp only [Document.content] at hcont
              subst hcont
              simp only [Document.goodTail, Document.content, List.tail_cons,
                Bool.and_eq_true] at h1
              exact h1.1.1
        · rw [eq_false_of_ne_true hpe] at h
          simp only [Bool.false_eq_true, if_false, pure_bind] at h
          have h0 := Except.ok.inj h
          simp only [Prod.mk.injEq] at h0
          obtain ⟨hs, _⟩ := h0
          subst hs
          refine pushFrame_inv top frames (.sec level title) (level + pad + 1)
            ⟨h1, h2, h3, h4⟩ ?_ (by intro m hm; simp [Plug.markers] at hm)
          simp only [Frame.sectionAll]
          obtain ⟨i, t, c⟩ := top
          exact content_all_of_paragraphProp i t c p hpp (eq_false_of_ne_true hpe) h1
    | none =>
      rw [hh] at h
      dsimp only at h
      by_cases t3 : hasPrefixS backticks3 text = true
      · -- code fence
        rw [t3] at h
        simp only [eq_self_iff_true, if_true] at h
        cases hsb : scanBlock (indentOf ⟨top, frames⟩) (lineno + 1) rest with
        | error e => rw [hsb] at h; simp [err_bind] at h
        | ok ck =>
          rw [hsb, ok_bind] at h
          obtain ⟨captured, k⟩ := ck
          cases hap : top.appendPar
              (.block (if (text.drop 3).isEmpty then none else some (text.drop 3))
                captured.reverse) with
          | error e => rw [hap] at h; simp [err_bind] at h
          | ok top₂ =>
            rw [hap, ok_bind] at h
            have h0 := Except.ok.inj h
            simp only [Prod.mk.injEq] at h0
            obtain ⟨hs, _⟩ := h0
            subst hs
            obtain ⟨hg2, _⟩ := Document.appendPar_goodD top _ top₂ hap h1 rfl
            obtain ⟨hmm, hww⟩ := Document.appendPar_memD top _ top₂ hap
            refine ⟨hg2, h2, ?_, ?_⟩
            · intro m hm
              rw [pstate_markers_mem] at hm
              rcases hm with hm | hm
              · rcases hmm m hm with hm2 | hm2
                · exact h3 m (by rw [pstate_markers_mem]; exact Or.inl hm2)
                · simp [ParItem.allMarkers] at hm2
              · exact h3 m (by rw [pstate_markers_mem]; exact Or.inr hm)
            · intro w hw
              rw [pstate_words_mem] at hw
              rcases hw with hw | hw
              · rcases hww w hw with hw2 | hw2
                · exact h4 w (by rw [pstate_words_mem]; exact Or.inl hw2)
                · -- a BLOCK word of the captured fence body
                  simp only [ParItem.allWords, List.mem_flatten] at hw2
                  obtain ⟨ws, hws, hwin⟩ := hw2
                  simp only [List.mem_map] at hws
                  obtain ⟨sl, hsl, rfl⟩ := hws
                  rw [List.mem_reverse] at hsl
                  exact scanBlock_align _ _ rest captured k hsb sl hsl w hwin
              · exact h4 w (by rw [pstate_words_mem]; exact Or.inr hw)
      · rw [eq_false_of_ne_true t3] at h
        simp only [Bool.false_eq_true, if_false] at h
        -- aside and list pushes, then the text tail
        have hlist : ∀ (sT : Document) (sF : List Frame) (tx : Str),
            stateInv ⟨sT, sF⟩ →
            (match listMatch tx with
              | some marker => do
                let _ ← Document.paragraphProp sT
                pure ((⟨Document.mk marker.length none [.paragraph (.mk [])],
                  Frame.mk sT (.list marker) :: sF⟩ : PState), tx.drop marker.length)
              | none => (pure (⟨sT, sF⟩, tx) : Except Err (PState × Str)))
              = .ok (⟨sT, sF⟩, tx) ∨ True → True := fun _ _ _ _ _ => trivial
        clear hlist
        cases ha : asideMatch text with
        | some am =>
          rw [ha] at h
          dsimp only at h
          cases hpp : top.paragraphProp with
          | error e => rw [hpp] at h; simp [err_bind] at h
          | ok p0 =>
            rw [hpp, ok_bind] at h
            simp only [pure_bind] at h
            have hinvA : stateInv ⟨Document.mk am.1 none [.paragraph (.mk [])],
                Frame.mk top (.aside am.2) :: frames⟩ :=
              pushFrame_inv top frames (.aside am.2) am.1 ⟨h1, h2, h3, h4⟩ rfl
                (by intro m hm; simp [Plug.markers] at hm)
            cases hlm : listMatch (text.drop am.1) with
            | some marker =>
              rw [hlm] at h
              dsimp only at h
              cases hpp2 : Document.paragraphProp
                  (Document.mk am.1 none [.paragraph (.mk [])]) with
              | error e => rw [hpp2] at h; simp [err_bind] at h
              | ok p2 =>
                rw [hpp2, ok_bind] at h
                try simp only [pure_bind] at h
                refine hfinish _ _ _ ?_ h
                exact pushFrame_inv _ _ (.list marker) marker.length hinvA rfl
                  (by intro m hm
                      simp only [Plug.markers, List.mem_singleton] at hm
                      subst hm
                      exact ⟨text.drop am.1, hlm⟩)
            | none =>
              rw [hlm] at h
              dsimp only at h
              try simp only [pure_bind] at h
              exact hfinish _ _ _ hinvA h
        | none =>
          rw [ha] at h
          dsimp only at h
          simp only [pure_bind] at h
          cases hlm : listMatch text with
          | some marker =>
            rw [hlm] at h
            dsimp only at h
            cases hpp2 : top.paragraphProp with
            | error e => rw [hpp2] at h; simp [err_bind] at h
            | ok p2 =>
              rw [hpp2, ok_bind] at h
              try simp only [pure_bind] at h
              refine hfinish _ _ _ ?_ h
              exact pushFrame_inv top frames (.list marker) marker.length ⟨h1, h2, h3, h4⟩ rfl
                (by intro m hm
                    simp only [Plug.markers, List.mem_singleton] at hm
                    subst hm
                    exact ⟨text, hlm⟩)
          | none =>
            rw [hlm] at h
            dsimp only at h
            try simp only [pure_bind] at h
            exact hfinish _ _ _ ⟨h1, h2, h3, h4⟩ h

theorem processLine_inv (s : PState) (lineno : Nat) (text : Str) (rest : List Str)
    (s₂ : PState) (rest₂ : List Str)
    (h : processLine s lineno text rest = .ok (s₂, rest₂)) (hinv : stateInv s) :
    stateInv s₂ := by
  unfold processLine at h
  dsimp only at h
  cases hpl : popLoop s.top s.frames text with
  | error e => rw [hpl] at h; simp [err_bind] at h
  | ok tf =>
    rw [hpl, ok_bind] at h
    obtain ⟨topA, framesA⟩ := tf
    obtain ⟨h1, h2, h3, h4⟩ := hinv
    obtain ⟨g1, g2, g3, g4⟩ := popLoop_inv s.frames s.top text topA framesA hpl h1 h2
    dsimp only at h
    cases hcl : claimPhase ⟨topA, framesA⟩ (text.drop (indentOf ⟨topA, framesA⟩))
        (lineno + 1) with
    | error e => rw [hcl] at h; simp [err_bind] at h
    | ok ct =>
      rw [hcl, ok_bind] at h
      obtain ⟨sB, textB⟩ := ct
      have hinvA : stateInv ⟨topA, framesA⟩ := by
        refine ⟨g1, g2, ?_, ?_⟩
        · intro m hm
          rw [pstate_markers_mem] at hm
          exact h3 m (g3 m (List.mem_append.mpr hm))
        · intro w hw
          rw [pstate_words_mem] at hw
          exact h4 w (g4 w (List.mem_append.mpr hw))
      have hinvB : stateInv sB := claimPhase_inv ⟨topA, framesA⟩ _ _ sB textB hcl hinvA
      obtain ⟨sBtop, sBframes⟩ := sB
      exact lineBody_inv sBtop sBframes lineno textB rest s₂ rest₂ h hinvB

theorem parseGo_inv : ∀ (fuel : Nat) (lines : List Str) (s : PState) (lineno : Nat)
    (s₂ : PState), parseGo fuel s lineno lines = .ok s₂ → stateInv s → stateInv s₂ := by
  intro fuel
  induction fuel with
  | zero =>
    intro lines s lineno s₂ h hi
    cases lines with
    | nil =>
      simp only [parseGo, Except.ok.injEq] at h
      subst h
      exact hi
    | cons l rest => simp [parseGo] at h
  | succ fuel ih =>
    intro lines s lineno s₂ h hi
    cases lines with
    | nil =>
      simp only [parseGo, Except.ok.injEq] at h
      subst h
      exact hi
    | cons l rest =>
      rw [parseGo] at h
      cases hp : processLine s lineno l rest with
      | error e => rw [hp] at h; simp at h
      | ok sr =>
        rw [hp] at h
        obtain ⟨s₃, rest₃⟩ := sr
        exact ih rest₃ s₃ _ s₂ h (processLine_inv s lineno l rest s₃ rest₃ hp hi)

theorem plugAll_inv : ∀ (frames : List Frame) (top : Document) (root : Document),
    plugAll top frames = .ok root → top.goodTail = true →
    (∀ f ∈ frames, f.goodTail = true) →
    root.goodTail = true ∧
    (∀ m ∈ root.allMarkers, m ∈ top.allMarkers ++ (frames.map Frame.markers).flatten) ∧
    (∀ w ∈ root.allWords, w ∈ top.allWords ++ (frames.map Frame.words).flatten)
  | [], top, root, h, htg, _ => by
    simp only [plugAll, Except.ok.injEq] at h
    subst h
    exact ⟨htg, by simp, by simp⟩
  | f :: rest, top, root, h, htg, hfg => by
    rw [plugAll] at h
    cases hpi : plugIn f.doc f.plug top with
    | error e => rw [hpi] at h; simp at h
    | ok d =>
      rw [hpi] at h
      have hfOK := hfg f (List.mem_cons_self f rest)
      have hfd : f.doc.goodTail = true := by
        simp only [Frame.goodTail, Bool.and_eq_true] at hfOK
        exact hfOK.1
      have hfs : Frame.sectionAll ⟨f.doc, f.plug⟩ = true := by
        simp only [Frame.goodTail, Bool.and_eq_true] at hfOK
        exact hfOK.2
      obtain ⟨hdg, _⟩ := plugIn_good f.doc f.plug top d hpi hfd hfs htg
      obtain ⟨hdm, hdw⟩ := plugIn_mem f.doc f.plug top d hpi
      obtain ⟨r1, r2, r3⟩ := plugAll_inv rest d root h hdg
        (fun g hg => hfg g (List.mem_cons_of_mem f hg))
      refine ⟨r1, ?_, ?_⟩
      · intro m hm
        simp only [List.map_cons, List.flatten_cons, List.mem_append, Frame.markers]
        rcases List.mem_append.mp (r2 m hm) with h5 | h6
        · rcases hdm m h5 with h7 | h8 | h9
          · tauto
          · tauto
          · tauto
        · tauto
      · intro w hw
        simp only [List.map_cons, List.flatten_cons, List.mem_append, Frame.words]
        rcases List.mem_append.mp (r3 w hw) with h5 | h6
        · rcases hdw w h5 with h7 | h8
          · tauto
          · tauto
        · tauto

/-- The initial parser state satisfies the invariant. -/
theorem stateInv_init : stateInv ⟨Document.mk 0 none [.paragraph (.mk [])], []⟩ := by
  refine ⟨rfl, ?_, ?_, ?_⟩
  · intro f hf
    simp at hf
  · intro m hm
    simp [PState.markers, Document.allMarkers, DocItem.allMarkersOpt, DocItem.allMarkersList,
      DocItem.allMarkers, Paragraph.allMarkers, ParItem.allMarkersList] at hm
  · intro w hw
    simp [PState.words, Document.allWords, DocItem.allWordsOpt, DocItem.allWordsList,
      DocItem.allWords, Paragraph.allWords, ParItem.allWordsList] at hw

/-- The tree `parse` returns is good, all its markers are unmodified matches
of the list rule, and none of its words carries `ALIGN`. -/
theorem parse_inv (lines : List Str) (root : Document) (h : parse lines = .ok root) :
    root.goodTail = true ∧ (∀ m ∈ root.allMarkers, isConsumedMarker m) ∧
    (∀ w ∈ root.allWords, w.modifier &&& Modifier.ALIGN = 0) := by
  unfold parse at h
  cases hg : parseGo lines.length ⟨Document.mk 0 none [.paragraph (.mk [])], []⟩ 0 lines with
  | error e => rw [hg] at h; simp at h
  | ok s =>
    rw [hg] at h
    obtain ⟨i1, i2, i3, i4⟩ := parseGo_inv lines.length lines _ 0 s hg stateInv_init
    obtain ⟨r1, r2, r3⟩ := plugAll_inv s.frames s.top root h i1 i2
    exact ⟨r1, fun m hm => i3 m (r2 m hm), fun w hw => i4 w (r3 w hw)⟩

theorem takeWhile_le_one {l : List DocItem}
    (h : l.tail.all (fun x => !x.isEmptyPar) = true) :
    (l.takeWhile DocItem.isEmptyPar).length ≤ 1 := by
  cases l with
  | nil => simp
  | cons x xs =>
    simp only [List.tail_cons] at h
    by_cases hx : x.isEmptyPar = true
    · rw [List.takeWhile_cons, if_pos hx]
      have : xs.takeWhile DocItem.isEmptyPar = [] := by
        cases xs with
        | nil => rfl
        | cons y ys =>
          simp only [List.all_cons, Bool.and_eq_true] at h
          have hy : y.isEmptyPar = false := by simpa using h.1
          rw [List.takeWhile_cons, if_neg (by simp [hy])]
      simp [this]
    · rw [List.takeWhile_cons, if_neg hx]
      simp

mutual

/-- Goodness bounds the trailing empty-paragraph run of every document in
the tree by one. -/
theorem Document.noDoubleD : ∀ (d : Document), d.goodTail = true →
    ∀ d₂ ∈ d.allDocs, (d₂.content.takeWhile DocItem.isEmptyPar).length ≤ 1
  | .mk i t c, hg, d₂, hd => by
    simp only [Document.allDocs, List.mem_cons, List.mem_append] at hd
    simp only [Document.goodTail, Bool.and_eq_true] at hg
    rcases hd with (rfl | hd) | hd
    · exact takeWhile_le_one (by simpa [Document.content] using hg.1.1)
    · exact DocItem.noDoubleOpt t hg.1.2 d₂ hd
    · exact DocItem.noDoubleListI c hg.2 d₂ hd

theorem DocItem.noDoubleOpt : ∀ (t : Option DocItem), Document.goodTitle t = true →
    ∀ d₂ ∈ DocItem.allDocsOpt t, (d₂.content.takeWhile DocItem.isEmptyPar).length ≤ 1
  | none, _, d₂, hd => by simp [DocItem.allDocsOpt] at hd
  | some x, hg, d₂, hd => DocItem.noDoubleI x hg d₂ (by simpa [DocItem.allDocsOpt] using hd)

theorem DocItem.noDoubleListI : ∀ (c : List DocItem), DocItem.goodTailList c = true →
    ∀ d₂ ∈ DocItem.allDocsList c, (d₂.content.takeWhile DocItem.isEmptyPar).length ≤ 1
  | [], _, d₂, hd => by simp [DocItem.allDocsList] at hd
  | x :: xs, hg, d₂, hd => by
    simp only [DocItem.allDocsList, List.mem_append] at hd
    simp only [DocItem.goodTailList, Bool.and_eq_true] at hg
    rcases hd with hd | hd
    · exact DocItem.noDoubleI x hg.1 d₂ hd
    · exact DocItem.noDoubleListI xs hg.2 d₂ hd

theorem DocItem.noDoubleI : ∀ (x : DocItem), x.goodTail = true →
    ∀ d₂ ∈ x.allDocs, (d₂.content.takeWhile DocItem.isEmptyPar).length ≤ 1
  | .paragraph p, hg, d₂, hd =>
    Paragraph.noDoubleP p (by simpa [DocItem.goodTail] using hg) d₂
      (by simpa [DocItem.allDocs] using hd)
  | .sec l ti d, hg, d₂, hd =>
    Document.noDoubleD d (by simpa [DocItem.goodTail] using hg) d₂
      (by simpa [DocItem.allDocs] using hd)

theorem Paragraph.noDoubleP : ∀ (p : Paragraph), p.goodTail = true →
    ∀ d₂ ∈ p.allDocs, (d₂.content.takeWhile DocItem.isEmptyPar).length ≤ 1
  | .mk xs, hg, d₂, hd =>
    ParItem.noDoubleListX xs (by simpa [Paragraph.goodTail] using hg) d₂
      (by simpa [Paragraph.allDocs] using hd)

theorem ParItem.noDoubleListX : ∀ (xs : List ParItem), ParItem.goodTailList xs = true →
    ∀ d₂ ∈ ParItem.allDocsList xs, (d₂.content.takeWhile DocItem.isEmptyPar).length ≤ 1
  | [], _, d₂, hd => by simp [ParItem.allDocsList] at hd
  | x :: xs, hg, d₂, hd => by
    simp only [ParItem.allDocsList, List.mem_append] at hd
    simp only [ParItem.goodTailList, Bool.and_eq_true] at hg
    rcases hd with hd | hd
    · exact ParItem.noDoubleX x hg.1 d₂ hd
    · exact ParItem.noDoubleListX xs hg.2 d₂ hd

theorem ParItem.noDoubleX : ∀ (x : ParItem), x.goodTail = true →
    ∀ d₂ ∈ x.allDocs, (d₂.content.takeWhile DocItem.isEmptyPar).length ≤ 1
  | .line _, _, d₂, hd => by simp [ParItem.allDocs] at hd
  | .aside k d, hg, d₂, hd =>
    Document.noDoubleD d (by simpa [ParItem.goodTail] using hg) d₂
      (by simpa [ParItem.allDocs] using hd)
  | .list m d, hg, d₂, hd =>
    Document.noDoubleD d (by simpa [ParItem.goodTail] using hg) d₂
      (by simpa [ParItem.allDocs] using hd)
  | .block _ _, _, d₂, hd => by simp [ParItem.allDocs] at hd

end

/-- Every cumulative position produced by the atom scan is the end of an
atom that matches at its own offset. -/
theorem cumSums_atom : ∀ (fuel : Nat) (s : Str) (a p : Nat),
    p ∈ cumSums a (listAtomsGo fuel s) →
    ∃ q n, p = a + q + n ∧ listAtom (s.drop q) = some n := by
  intro fuel
  induction fuel with
  | zero => intro s a p hp; simp [listAtomsGo, cumSums] at hp
  | succ fuel ih =>
    intro s a p hp
    rw [listAtomsGo] at hp
    cases hla : listAtom s with
    | none => rw [hla] at hp; simp [cumSums] at hp
    | some n =>
      rw [hla] at hp
      simp only [cumSums, List.mem_cons] at hp
      rcases hp with rfl | hp
      · exact ⟨0, n, by omega, by simpa using hla⟩
      · obtain ⟨q, n₂, hpe, hq⟩ := ih (s.drop n) (a + n) p hp
        refine ⟨n + q, n₂, by omega, ?_⟩
        rw [List.drop_drop] at hq
        exact hq

/-- A maximal run of `p`-characters followed by the expected punctuation
character: the consumed text reversed starts with that punctuation. -/
theorem take_run_punct (s : Str) (p : Char → Bool) (d : Char)
    (hd : (s.drop (s.takeWhile p).length).headD 'x' = d) (hdx : d ≠ 'x') :
    (s.take ((s.takeWhile p).length + 1)).reverse
      = d :: (s.takeWhile p).reverse := by
  have hpre : s.takeWhile p = s.take (s.takeWhile p).length :=
    List.prefix_iff_eq_take.mp (List.takeWhile_prefix p)
  have hdrop : s.drop (s.takeWhile p).length ≠ [] := by
    intro hnil
    rw [hnil] at hd
    exact hdx hd.symm
  obtain ⟨e, es, hes⟩ := List.exists_cons_of_ne_nil hdrop
  have he : e = d := by rw [hes] at hd; simpa using hd
  have htake : s.take ((s.takeWhile p).length + 1) = s.takeWhile p ++ [d] := by
    rw [List.take_add, ← hpre, hes, he]
    rfl
  rw [htake, List.reverse_append]
  rfl

/-- The `(?:\s+|$)` tail consumes only whitespace. -/
theorem listTail_ws (r : Str) (b : Nat) (h : listTail r = some b) :
    (r.take b).all pySpace = true := by
  simp only [listTail] at h
  by_cases h1 : 0 < (r.takeWhile pySpace).length
  · rw [if_pos h1] at h
    have hb : (r.takeWhile pySpace).length = b := Option.some.inj h
    subst hb
    rw [← List.prefix_iff_eq_take.mp (List.takeWhile_prefix pySpace)]
    rw [List.all_eq_true]
    intro x hx
    exact List.mem_takeWhile_imp hx
  · rw [if_neg h1] at h
    by_cases h2 : r.isEmpty
    · rw [if_pos h2] at h
      have hb : (0 : Nat) = b := Option.some.inj h
      subst hb
      rfl
    · rw [if_neg h2] at h
      exact absurd h (by simp)

theorem rstrip_append_ws (x w : Str) (hw : w.all pySpace = true) :
    rstrip (x ++ w) = rstrip x := by
  unfold rstrip
  rw [List.reverse_append, List.dropWhile_append]
  have : w.reverse.dropWhile pySpace = [] := by
    rw [List.dropWhile_eq_nil_iff]
    intro c hc
    rw [List.mem_reverse] at hc
    exact (List.all_eq_true.mp hw) c hc
  rw [this]
  simp

theorem rstrip_eq_self_of_head (x : Str) (c : Char) (cs : Str) (hx : x.reverse = c :: cs)
    (hc : pySpace c = false) : rstrip x = x := by
  unfold rstrip
  rw [hx, List.dropWhile_cons, if_neg (by simp [hc])]
  rw [← hx, List.reverse_reverse]

/-- Whatever text the list rule consumes, `list_as_html` can classify it:
the marker is an atom run plus optional whitespace, its last atom ends in
`'.'` after an upper-case/digit run or in `'-'`, so at least one of the four
`re.search` probes succeeds. -/
theorem listMatch_rendererInfers (s m : Str) (h : listMatch s = some m) :
    rendererInfers m = true := by
  simp only [listMatch] at h
  cases hf : (cumSums 0 (listAtoms s)).reverse.findSome?
      (fun p => (listTail (s.drop p)).map (fun b => p + b)) with
  | none => rw [hf] at h; simp at h
  | some plen =>
    rw [hf] at h
    simp only [Option.map_some', Option.some.injEq] at h
    obtain ⟨p, hpmem, hpf⟩ := List.exists_of_findSome?_eq_some hf
    rw [List.mem_reverse] at hpmem
    cases hlt : listTail (s.drop p) with
    | none => rw [hlt] at hpf; simp at hpf
    | some b =>
      rw [hlt] at hpf
      simp only [Option.map_some', Option.some.injEq] at hpf
      obtain ⟨q, n, hpe, hatom⟩ := cumSums_atom s.length s 0 p
        (by rwa [listAtoms] at hpmem)
      have hpqn : p = q + n := by omega
      have hm : m = s.take p ++ (s.drop p).take b := by
        rw [← h, ← hpf, List.take_add]
      have hws : ((s.drop p).take b).all pySpace = true := listTail_ws _ b hlt
      have hsplit2 : s.take p = s.take q ++ (s.drop q).take n := by
        rw [hpqn, List.take_add]
      -- the shape of the final atom
      simp only [listAtom] at hatom
      split at hatom
      · -- upper-case run followed by '.'
        rename_i hcond
        simp only [Option.some.injEq] at hatom
        simp only [Bool.and_eq_true, decide_eq_true_eq, beq_iff_eq] at hcond
        have hrev := take_run_punct (s.drop q) isUpperC '.' hcond.2 (by decide)
        rw [hatom] at hrev
        have hrevp : (s.take p).reverse
            = '.' :: (((s.drop q).takeWhile isUpperC).reverse ++ (s.take q).reverse) := by
          rw [hsplit2, List.reverse_append, hrev]
          rfl
        have hr1 : rstrip m = s.take p := by
          rw [hm, rstrip_append_ws _ _ hws]
          exact rstrip_eq_self_of_head _ '.' _ hrevp (by decide)
        have hrun : (s.drop q).takeWhile isUpperC ≠ [] := by
          intro hnil
          rw [hnil] at hcond
          simp at hcond
        have hrne : ((s.drop q).takeWhile isUpperC).reverse ≠ [] := by
          simpa using hrun
        obtain ⟨c, cs, hcs⟩ := List.exists_cons_of_ne_nil hrne
        have hcup : isUpperC c = true := by
          have : c ∈ ((s.drop q).takeWhile isUpperC).reverse := by
            rw [hcs]; exact List.mem_cons_self c cs
          rw [List.mem_reverse] at this
          exact List.mem_takeWhile_imp this
        unfold rendererInfers searchEndsDot
        rw [hr1, hrevp, hcs]
        simp [hcup]
      · split at hatom
        · -- digit run followed by '.'
          rename_i hcond
          simp only [Option.some.injEq] at hatom
          simp only [Bool.and_eq_true, decide_eq_true_eq, beq_iff_eq] at hcond
          have hrev := take_run_punct (s.drop q) isDigitC '.' hcond.2 (by decide)
          rw [hatom] at hrev
          have hrevp : (s.take p).reverse
              = '.' :: (((s.drop q).takeWhile isDigitC).reverse ++ (s.take q).reverse) := by
            rw [hsplit2, List.reverse_append, hrev]
            rfl
          have hr1 : rstrip m = s.take p := by
            rw [hm, rstrip_append_ws _ _ hws]
            exact rstrip_eq_self_of_head _ '.' _ hrevp (by decide)
          have hrun : (s.drop q).takeWhile isDigitC ≠ [] := by
            intro hnil
            rw [hnil] at hcond
            simp at hcond
          have hrne : ((s.drop q).takeWhile isDigitC).reverse ≠ [] := by
            simpa using hrun
          obtain ⟨c, cs, hcs⟩ := List.exists_cons_of_ne_nil hrne
          have hcdig : isDigitC c = true := by
            have : c ∈ ((s.drop q).takeWhile isDigitC).reverse := by
              rw [hcs]; exact List.mem_cons_self c cs
            rw [List.mem_reverse] at this
            exact List.mem_takeWhile_imp this
          unfold rendererInfers searchEndsDot
          rw [hr1, hrevp, hcs]
          simp [hcdig]
        · split at hatom
          · -- whitespace run followed by '-'
            rename_i hcond
            simp only [Option.some.injEq] at hatom
            simp only [beq_iff_eq] at hcond
            have hrev := take_run_punct (s.drop q) pySpace '-' hcond (by decide)
            rw [hatom] at hrev
            have hrevp : (s.take p).reverse
                = '-' :: (((s.drop q).takeWhile pySpace).reverse ++ (s.take q).reverse) := by
              rw [hsplit2, List.reverse_append, hrev]
              rfl
            have hr1 : rstrip m = s.take p := by
              rw [hm, rstrip_append_ws _ _ hws]
              exact rstrip_eq_self_of_head _ '-' _ hrevp (by decide)
            unfold rendererInfers searchEndsDash searchEndsDot
            rw [hr1, hrevp]
            simp
          · simp at hatom

/-! ### Claim theorems -/

/-- C1: the claim fails on the code.  On the two-line input `# Title` /
`Body text.` (second line not indented) `parse` does not return the claimed
one-`Section` tree: processing line 2 pops the heading scope, leaving the
root's content as `[Section]`, and the root-emptiness check
(`document().empty()`) then calls `.empty()` on the `Section` element, which
has no such method — Python raises `AttributeError`. -/
theorem c1_scenarioA_attribute_error :
    parse ["# Title".toList, "Body text.".toList] = .error .attributeError := rfl

/-- C2 counterexample: the claim is false for the bracket sigils.  A `[`
token is always a single character and `Modifier.SELECT ≠ Modifier.QUOTES`,
so toggling it does not set `WITH_SPACES`; whitespace inside the bracket
span of `[a b]` therefore raises `Spaces are not allowed here!`. -/
theorem c2_counterexample_bracket_space :
    parse ["[a b]".toList] = .error (.spacesNotAllowed 1) := rfl

/-- C2 (amended): only the `"` sigil toggles the spaces-allowed flag
together with its `QUOTES` flag; `[` and `]` toggle `SELECT` alone (they are
always single-character tokens, so the doubled-sigil rule cannot apply), and
whitespace inside a bracket span with no other spaces-allowing modifier is
an error.  The input `"quoted text here"` does tokenize as a single
`QUOTES`-flagged span (every word carrying `QUOTES ||| WITH_SPACES`) without
raising the spacing error. -/
theorem c2_amended_quotes_imply_spaces :
    (∀ (ref : Nat) (rest : List Str) (mod : Nat) (acc : List Word),
      tokenizeGo ref (['"'] :: rest) mod acc
        = tokenizeGo ref rest (mod ^^^ (Modifier.QUOTES ||| Modifier.WITH_SPACES)) acc) ∧
    (∀ (ref : Nat) (rest : List Str) (mod : Nat) (acc : List Word),
      tokenizeGo ref (['['] :: rest) mod acc
        = tokenizeGo ref rest (mod ^^^ Modifier.SELECT) acc) ∧
    (∀ (ref : Nat) (rest : List Str) (mod : Nat) (acc : List Word),
      tokenizeGo ref ([']'] :: rest) mod acc
        = tokenizeGo ref rest (mod ^^^ Modifier.SELECT) acc) ∧
    parse ["\"quoted text here\"".toList]
      = .ok (.mk 0 none [.paragraph (.mk [.line [SourceLine.mk 1
          [Word.mk "here".toList (Modifier.QUOTES ||| Modifier.WITH_SPACES),
           Word.mk " ".toList (Modifier.QUOTES ||| Modifier.WITH_SPACES),
           Word.mk "text".toList (Modifier.QUOTES ||| Modifier.WITH_SPACES),
           Word.mk " ".toList (Modifier.QUOTES ||| Modifier.WITH_SPACES),
           Word.mk "quoted".toList (Modifier.QUOTES ||| Modifier.WITH_SPACES)]]])]) :=
  ⟨fun _ _ _ _ => rfl, fun _ _ _ _ => rfl, fun _ _ _ _ => rfl, rfl⟩

/-- C4: a run of N ≥ 1 blank (empty or whitespace-only) lines while the
current trailing paragraph is non-empty produces exactly one paragraph
break: the first blank line appends one fresh empty paragraph to the current
document and every following blank line leaves the state unchanged. -/
theorem c4_blank_idempotence (bs : List Str) (hne : bs ≠ [])
    (hb : ∀ b ∈ bs, isBlank b = true)
    (top : Document) (frames : List Frame) (lineno : Nat) (p : Paragraph)
    (hempty : top.emptyE = .ok false)
    (hpar : top.paragraphProp = .ok p) (hpne : p.empty = false) :
    parseGo bs.length ⟨top, frames⟩ lineno bs
      = .ok ⟨top.appendContent (.paragraph (.mk [])), frames⟩ := by
  cases bs with
  | nil => exact absurd rfl hne
  | cons b bs =>
    have hstep := processLine_blank_break top frames lineno b bs p
      (hb b (List.mem_cons_self b bs)) hempty hpar hpne
    rw [show (b :: bs).length = bs.length + 1 from rfl]
    unfold parseGo
    rw [hstep]
    obtain ⟨i, t, c⟩ := top
    have hrun := parseGo_blank_noop bs (fun x hx => hb x (List.mem_cons_of_mem b hx)) i t c
      frames (lineno + 1 + (bs.length - bs.length)) hempty
    simpa [Document.appendContent] using hrun

theorem c4_witness :
    [[' '], ([] : Str)] ≠ [] ∧
    parseGo 2 ⟨Document.mk 0 none [.paragraph (.mk [.line [SourceLine.mk 1 []]])], []⟩ 1
        [[' '], []]
      = .ok ⟨Document.mk 0 none
          [.paragraph (.mk []), .paragraph (.mk [.line [SourceLine.mk 1 []]])], []⟩ :=
  ⟨by decide,
    c4_blank_idempotence [[' '], []] (by decide) (by decide)
      (Document.mk 0 none [.paragraph (.mk [.line [SourceLine.mk 1 []]])]) [] 1
      (.mk [.line [SourceLine.mk 1 []]]) rfl rfl rfl⟩

/-- C6: a blank (empty or whitespace-only) raw line never pops any scope:
the pop phase leaves the scope stack exactly as it was, however deep the
nesting, because the guard requires a nonempty line whose first `indent()`
characters are not all whitespace. -/
theorem c6_blank_line_pops_nothing (top : Document) (frames : List Frame) (text : Str)
    (h : isBlank text = true) : popLoop top frames text = .ok (top, frames) :=
  popLoop_blank top frames text h

theorem c6_witness :
    popLoop (Document.mk 3 none [.paragraph (.mk [])])
        [Frame.mk (Document.mk 2 none []) (Plug.aside .plain),
         Frame.mk (Document.mk 0 none []) (Plug.sec 1 none)] [' ', '\t']
      = .ok (Document.mk 3 none [.paragraph (.mk [])],
        [Frame.mk (Document.mk 2 none []) (Plug.aside .plain),
         Frame.mk (Document.mk 0 none []) (Plug.sec 1 none)]) :=
  c6_blank_line_pops_nothing _ _ _ (by decide)

/-- C7: while the current document is still entirely empty, a line whose
indent-stripped text begins with whitespace is fatal at the root
(`Invalid space on root document`, i.e. `Err.rootSpace`), whereas a nested
empty scope claims the whole leading whitespace run as additional indent
width and strips it from the line. -/
theorem c7_root_space_vs_nested_claim :
    (∀ (top : Document) (lineno : Nat) (text : Str) (rest : List Str),
      top.emptyE = .ok true →
      0 < ((text.drop (indentOf ⟨top, []⟩)).takeWhile pySpace).length →
      processLine ⟨top, []⟩ lineno text rest = .error (.rootSpace (lineno + 1))) ∧
    (∀ (top : Document) (frames : List Frame) (text : Str) (ref : Nat),
      frames ≠ [] → top.emptyE = .ok true →
      claimPhase ⟨top, frames⟩ text ref
        = .ok (⟨Document.mk (top.indent + (text.takeWhile pySpace).length) top.title
            top.content, frames⟩, text.drop (text.takeWhile pySpace).length)) := by
  constructor
  · intro top lineno text rest hemp hws
    unfold processLine
    dsimp only
    rw [show popLoop top [] text = .ok (top, []) from rfl, ok_bind]
    dsimp only
    unfold claimPhase
    dsimp only
    rw [hemp, ok_bind]
    simp [hws, err_bind]
  · intro top frames text ref hne hemp
    unfold claimPhase
    dsimp only
    rw [hemp, ok_bind]
    have hf : frames.isEmpty = false := by
      cases frames with
      | nil => exact absurd rfl hne
      | cons f fr => rfl
    simp only [hf, Bool.and_false, Bool.false_eq_true, if_false, if_true, eq_self_iff_true]

/-- C3: a line matching the heading rule (after the pop and claim phases,
with the title rule not firing) opens a brand-new nested scope whose indent
width is `level + pad + 1`, suspended on the stack over the previous
document; when the active document's trailing paragraph is empty, its
trailing content element is removed before the `Section` plug is recorded,
so the heading leaves no dangling empty paragraph behind. -/
theorem c3_heading_opens_scope (s₀ : PState) (lineno : Nat) (text : Str) (rest : List Str)
    (top₁ : Document) (frames₁ : List Frame) (i : Nat) (t : Option DocItem)
    (c : List DocItem) (frames₂ : List Frame) (text₂ : Str)
    (level pad : Nat) (title : Option Str) (p : Paragraph)
    (hpop : popLoop s₀.top s₀.frames text = .ok (top₁, frames₁))
    (hclaim : claimPhase ⟨top₁, frames₁⟩ (text.drop (indentOf ⟨top₁, frames₁⟩)) (lineno + 1)
      = .ok (⟨.mk i t c, frames₂⟩, text₂))
    (hnotitle : hasPrefixS ['-', '-', '-'] text₂ = false)
    (hhead : headingMatch text₂ = some (level, pad, title))
    (hp : Document.paragraphProp (.mk i t c) = .ok p) :
    processLine s₀ lineno text rest = .ok
      (⟨Document.mk (level + pad + 1) none [.paragraph (.mk [])],
        Frame.mk (.mk i t (if p.empty then c.tail else c)) (.sec level title) :: frames₂⟩,
      rest) := by
  unfold processLine
  rw [hpop, ok_bind]
  dsimp only
  rw [hclaim, ok_bind]
  dsimp only
  unfold lineBody
  rw [hnotitle]
  simp only [Bool.false_eq_true, if_false]
  rw [hhead]
  dsimp only
  rw [hp, ok_bind]
  by_cases he : p.empty
  · cases c with
    | nil => simp [Document.paragraphProp] at hp
    | cons x cs =>
      simp only [he, if_true, eq_self_iff_true]
      rfl
  · simp only [he, Bool.false_eq_true, if_false]
    rfl

theorem c3_witness :
    processLine ⟨Document.mk 0 none [.paragraph (.mk [])], []⟩ 0 "# T".toList []
      = .ok (⟨Document.mk 2 none [.paragraph (.mk [])],
          [Frame.mk (Document.mk 0 none []) (Plug.sec 1 (some ['T']))]⟩, []) :=
  c3_heading_opens_scope ⟨Document.mk 0 none [.paragraph (.mk [])], []⟩ 0 "# T".toList []
    (Document.mk 0 none [.paragraph (.mk [])]) [] 0 none [.paragraph (.mk [])] []
    "# T".toList 1 0 (some ['T']) (.mk []) rfl rfl rfl rfl rfl

/-- C8: the code-fence scan consumes raw lines with no classification or
scope bookkeeping until the first line that, under the current total indent,
matches the closing fence; every body line is captured as one `SourceLine`
holding exactly one `BLOCK`-modified `Word` whose value is the raw line with
the indent stripped.  On `['```py', 'x=1', '```']` this yields a `Block`
with language `py` and the single raw source line `x=1`. -/
theorem c8_code_fence_verbatim :
    (∀ (ind idx : Nat) (lines : List Str) (captured : List SourceLine) (k : Nat),
      scanBlock ind idx lines = .ok (captured, k) →
      ∃ body closer rest, lines = body ++ closer :: rest ∧ k = body.length + 1 ∧
        (∀ l ∈ body, closingFence ind l = false) ∧ closingFence ind closer = true ∧
        captured = body.mapIdx (fun j l => SourceLine.mk (idx + j)
          [Word.mk (l.drop ind) Modifier.BLOCK])) ∧
    parse ["```py".toList, "x=1".toList, "```".toList]
      = .ok (.mk 0 none [.paragraph (.mk [.block (some "py".toList)
          [SourceLine.mk 1 [Word.mk "x=1".toList Modifier.BLOCK]]])]) :=
  ⟨fun ind idx lines captured k h => scanBlock_spec ind idx lines captured k h, rfl⟩

theorem c8_witness :
    ∃ body closer rest,
      ["x=1".toList, "```".toList] = body ++ closer :: rest ∧ (2 : Nat) = body.length + 1 ∧
      (∀ l ∈ body, closingFence 0 l = false) ∧ closingFence 0 closer = true ∧
      [SourceLine.mk 1 [Word.mk "x=1".toList Modifier.BLOCK]]
        = body.mapIdx (fun j l => SourceLine.mk (1 + j) [Word.mk (l.drop 0) Modifier.BLOCK]) :=
  c8_code_fence_verbatim.1 0 1 ["x=1".toList, "```".toList]
    [SourceLine.mk 1 [Word.mk "x=1".toList Modifier.BLOCK]] 2 rfl

/-- C5: (a) in any tree `parse` returns, no document's content sequence ends
in more than one trailing empty paragraph (content lists are newest-first,
so the trailing run is the `takeWhile` prefix); (b) when a scope whose
content ends in an empty paragraph and which is non-empty (its emptiness
check returning `False` without error) is popped, that trailing empty
paragraph is removed from the scope and re-appended as a fresh paragraph of
the then-current parent document. -/
theorem c5_trailing_empty_paragraphs :
    (∀ (lines : List Str) (root : Document), parse lines = .ok root →
      ∀ d ∈ root.allDocs, (d.content.takeWhile DocItem.isEmptyPar).length ≤ 1) ∧
    (∀ (i : Nat) (t : Option DocItem) (c : List DocItem) (f : Frame) (parent : Document),
      Document.emptyE (.mk i t (.paragraph (.mk []) :: c)) = .ok false →
      plugIn f.doc f.plug (.mk i t c) = .ok parent →
      popOnce (.mk i t (.paragraph (.mk []) :: c)) f
        = .ok (parent.appendContent (.paragraph (.mk [])))) := by
  constructor
  · intro lines root h d hd
    exact Document.noDoubleD root (parse_inv lines root h).1 d hd
  · intro i t c f parent hemp hplug
    unfold popOnce
    rw [hemp, ok_bind]
    simp only [Bool.false_eq_true, if_false]
    rw [show Document.paragraphProp (.mk i t (.paragraph (.mk []) :: c))
        = .ok (.mk []) from rfl, ok_bind]
    simp only [Paragraph.empty, Paragraph.content, List.isEmpty_nil, if_true,
      eq_self_iff_true]
    rw [show Document.popContent (.mk i t (.paragraph (.mk []) :: c))
        = .ok (.paragraph (.mk []), .mk i t c) from rfl, ok_bind]
    rw [hplug, ok_bind]
    rfl

theorem c5_witness :
    ((Document.mk 0 none
        [.paragraph (.mk [.line [SourceLine.mk 1 [Word.mk ['a'] Modifier.NONE]]])]).content.takeWhile
      DocItem.isEmptyPar).length ≤ 1 ∧
    popOnce (Document.mk 2 none
        [.paragraph (.mk []), .paragraph (.mk [.line [SourceLine.mk 1 []]])])
      (Frame.mk (Document.mk 0 none []) (Plug.sec 1 none))
      = .ok (Document.mk 0 none
          [.paragraph (.mk []),
           .sec 1 none (Document.mk 2 none [.paragraph (.mk [.line [SourceLine.mk 1 []]])])]) :=
  ⟨c5_trailing_empty_paragraphs.1 ["a".toList]
      (Document.mk 0 none
        [.paragraph (.mk [.line [SourceLine.mk 1 [Word.mk ['a'] Modifier.NONE]]])]) rfl
      _ (List.mem_cons_self _ _),
    c5_trailing_empty_paragraphs.2 2 none
      [.paragraph (.mk [.line [SourceLine.mk 1 []]])]
      (Frame.mk (Document.mk 0 none []) (Plug.sec 1 none))
      (Document.mk 0 none
        [.sec 1 none (Document.mk 2 none [.paragraph (.mk [.line [SourceLine.mk 1 []]])])])
      rfl rfl⟩

/-- C10: on every input on which `parse` succeeds, no word anywhere in the
returned tree carries the `ALIGN` modifier flag: the sigil mapping toggles
only `BOLD`, `ITALIC`, `STRIKETHROUGH`, `MONOSPACE`, `QUOTES` and `SELECT`
(plus `WITH_SPACES`), so the running modifier never acquires `ALIGN` and the
clear-`ALIGN`-after-one-word branch never fires. -/
theorem c10_no_align_words (lines : List Str) (root : Document)
    (h : parse lines = .ok root) :
    ∀ w ∈ root.allWords, w.modifier &&& Modifier.ALIGN = 0 :=
  (parse_inv lines root h).2.2

theorem c10_witness :
    (Word.mk ['a'] Modifier.NONE).modifier &&& Modifier.ALIGN = 0 :=
  c10_no_align_words ["a".toList]
    (Document.mk 0 none
      [.paragraph (.mk [.line [SourceLine.mk 1 [Word.mk ['a'] Modifier.NONE]]])])
    rfl (Word.mk ['a'] Modifier.NONE) (by decide)

theorem c7_witness :
    processLine ⟨Document.mk 0 none [.paragraph (.mk [])], []⟩ 0 [' ', 'a'] []
        = .error (.rootSpace 1) ∧
    claimPhase ⟨Document.mk 2 none [.paragraph (.mk [])],
        [Frame.mk (Document.mk 0 none []) (Plug.sec 1 none)]⟩ [' ', 'a'] 2
      = .ok (⟨Document.mk 3 none [.paragraph (.mk [])],
          [Frame.mk (Document.mk 0 none []) (Plug.sec 1 none)]⟩, ['a']) :=
  ⟨c7_root_space_vs_nested_claim.1 _ 0 [' ', 'a'] [] rfl (by decide),
    c7_root_space_vs_nested_claim.2 _ _ [' ', 'a'] 2 (List.cons_ne_nil _ _) rfl⟩

/-- C9: every list marker stored in a tree that `parse` returns is exactly
the text the list rule consumed (the full match of
`^((?:[A-Z]+\.|\d+\.|[IVXCM]+\.|\s*-)+(?:\s+|$))` on some line suffix), and
the HTML renderer's kind inference succeeds on it: after stripping trailing
whitespace the marker ends in `'-'` or in `'.'` preceded by an upper-case
letter or a digit, so one of `list_as_html`'s four `re.search` probes
matches. -/
theorem c9_marker_preservation (lines : List Str) (root : Document)
    (h : parse lines = .ok root) :
    ∀ m ∈ root.allMarkers, isConsumedMarker m ∧ rendererInfers m = true := by
  intro m hm
  obtain ⟨t, ht⟩ := (parse_inv lines root h).2.1 m hm
  exact ⟨⟨t, ht⟩, listMatch_rendererInfers t m ht⟩

theorem c9_witness :
    isConsumedMarker ['-', ' '] ∧ rendererInfers ['-', ' '] = true :=
  c9_marker_preservation ["- a".toList]
    (Document.mk 0 none
      [.paragraph (.mk [.list ['-', ' ']
        (Document.mk 2 none
          [.paragraph (.mk [.line [SourceLine.mk 1 [Word.mk ['a'] Modifier.NONE]]])])])])
    rfl ['-', ' '] (by decide)

end MMD
